import Mathlib

/-!
GPT-2 byte-level BPE tokenizer (`pyis/ops/tokenizer/gpt2_tokenizer.h`)

A shallow embedding of the tokenizer engine and the properties its specification states.

Conventions of the embedding:

* a `std::string` is the list of its `char`s, each `char` given by its value as an
  unsigned byte (`Str`);
* a C++ `int` is an `Int`;
* a `std::unordered_map` is an association list with unique keys (`find`, `insert`,
  `assign` below); a `std::list` / `std::vector` is a `List`;
* `PYIS_THROW` is an `Except.error`.
-/

set_option autoImplicit false

/-! ## Strings and maps -/

/-- A `std::string`, as the list of its bytes. -/
abbrev Str := List Nat

/-- The bytes of an ASCII literal. -/
def ascii (s : String) : Str := s.toList.map Char.toNat

/-- `std::unordered_map<K, V>`: an association list. -/
abbrev UMap (K V : Type) := List (K × V)

/-- `m.find(k)`: the mapped value, `none` standing for `m.end()`. -/
def UMap.find {K V : Type} [DecidableEq K] : UMap K V → K → Option V
  | [], _ => none
  | (k0, v0) :: rest, k => if k0 = k then some v0 else UMap.find rest k

/-- `m.insert({k, v})`: adds the entry unless the key is already present. -/
def UMap.insert {K V : Type} [DecidableEq K] (m : UMap K V) (k : K) (v : V) : UMap K V :=
  match UMap.find m k with
  | some _ => m
  | none => m ++ [(k, v)]

/-- `m[k] = v`: overwrites the value of an existing key, adds the entry otherwise. -/
def UMap.assign {K V : Type} [DecidableEq K] : UMap K V → K → V → UMap K V
  | [], k, v => [(k, v)]
  | (k0, v0) :: rest, k, v =>
    if k0 = k then (k0, v) :: rest else (k0, v0) :: UMap.assign rest k v

/-- `m.size()`. -/
def UMap.size {K V : Type} (m : UMap K V) : Nat := m.length

/-! ## The merge engine (`GPT2Tokenizer::bpe`) -/

/-- `struct BpeNode`: `id` is the merged id, `value` the rank of the merge rule. -/
structure BpeNode where
  id : Int
  value : Int
deriving DecidableEq, Repr

/-- The type of `bpe_map_`. -/
abbrev BpeMap := UMap (Int × Int) BpeNode

/-- `std::numeric_limits<int>::max()`. -/
def INT_MAX : Int := 2147483647

/-- The locals of the scan loop of `bpe` (lines 277-280): `pos_it` is the index of the
selected element, `none` standing for `vals.end()`. -/
structure BpeScan where
  pos_it : Option Nat
  minval : Int
  ori_id1 : Int
  ori_id2 : Int
  aim_id : Int
deriving DecidableEq, Repr

/-- The locals as initialised before the scan loop. -/
def BpeScan.init : BpeScan :=
  { pos_it := none, minval := INT_MAX, ori_id1 := 0, ori_id2 := 0, aim_id := 0 }

/-- The scan loop of `bpe` (lines 281-294), run on the part of the list that starts at
index `i`. -/
def bpeScanFrom (bpe_map_ : BpeMap) : Nat → List Int → BpeScan → BpeScan
  | i, a :: b :: t, s =>
    match UMap.find bpe_map_ (a, b) with
    | none => bpeScanFrom bpe_map_ (i + 1) (b :: t) s
    | some node =>
      if s.minval > node.value then
        bpeScanFrom bpe_map_ (i + 1) (b :: t)
          { pos_it := some i, minval := node.value, ori_id1 := a, ori_id2 := b,
            aim_id := node.id }
      else bpeScanFrom bpe_map_ (i + 1) (b :: t) s
  | _, _, s => s

/-- The whole scan of one outer iteration. -/
def bpeScan (bpe_map_ : BpeMap) (vals : List Int) : BpeScan :=
  bpeScanFrom bpe_map_ 0 vals BpeScan.init

/-- The sweep loop of `bpe` (lines 299-307) over the elements after the first merged pair. -/
def bpeSweep (ori_id1 ori_id2 aim_id : Int) : List Int → List Int
  | x :: y :: t =>
    if x ≠ ori_id1 then x :: bpeSweep ori_id1 ori_id2 aim_id (y :: t)
    else if y ≠ ori_id2 then x :: bpeSweep ori_id1 ori_id2 aim_id (y :: t)
    else aim_id :: bpeSweep ori_id1 ori_id2 aim_id t
  | l => l

/-- Lines 297-307: the pair at `pos` is replaced by `aim_id`, then the rest is swept. -/
def bpeMergeAt (s : BpeScan) (pos : Nat) (vals : List Int) : List Int :=
  vals.take pos ++ s.aim_id :: bpeSweep s.ori_id1 s.ori_id2 s.aim_id (vals.drop (pos + 2))

/-- One iteration of the outer `while` of `bpe`; `none` when the loop is left. -/
def bpeStep (bpe_map_ : BpeMap) (vals : List Int) : Option (List Int) :=
  if vals.length ≥ 2 then
    match (bpeScan bpe_map_ vals).pos_it with
    | none => none
    | some pos => some (bpeMergeAt (bpeScan bpe_map_ vals) pos vals)
  else none

/-- The outer loop of `bpe`, at most `fuel` iterations. -/
def bpeLoop (bpe_map_ : BpeMap) : Nat → List Int → List Int
  | 0, vals => vals
  | fuel + 1, vals =>
    match bpeStep bpe_map_ vals with
    | none => vals
    | some vals1 => bpeLoop bpe_map_ fuel vals1

/-- `GPT2Tokenizer::bpe`: every iteration shortens the list, so `vals.length` iterations
are enough (`bpe_unfold`). -/
def GPT2Tokenizer.bpe (bpe_map_ : BpeMap) (vals : List Int) : List Int :=
  bpeLoop bpe_map_ vals.length vals

/-- The ranks of the table are below `INT_MAX`, the value the running minimum of the scan
starts with. -/
def RanksBelowMax (bpe_map_ : BpeMap) : Prop :=
  ∀ (k : Int × Int) (node : BpeNode), UMap.find bpe_map_ k = some node → node.value < INT_MAX

/-- The adjacent pair at index `i` of `vals`, if there is one. -/
def pairAt (vals : List Int) (i : Nat) : Option (Int × Int) :=
  match vals.drop i with
  | a :: b :: _ => some (a, b)
  | _ => none

/-- A merge table of two rules: (1,2) -> (4, rank 0) and (2,3) -> (5, rank 1). -/
def tableAB : BpeMap := [((1, 2), ⟨4, 0⟩), ((2, 3), ⟨5, 1⟩)]

/-- `isspace` in the "C" locale (the class `\s` of the pattern). -/
def isSpaceByte (c : Nat) : Bool := c = 32 || (9 ≤ c && c ≤ 13)

/-- `isalpha` in the "C" locale (the class `[:alpha:]` inside a bracket expression). -/
def isAlphaByte (c : Nat) : Bool := (65 ≤ c && c ≤ 90) || (97 ≤ c && c ≤ 122)

/-- `isdigit` (the class `[:digit:]` inside a bracket expression). -/
def isDigitByte (c : Nat) : Bool := 48 ≤ c && c ≤ 57

/-- `X+` matched against a whole text: one or more bytes, all in the class. -/
def onePlus (cls : Nat → Bool) (t : Str) : Bool := !t.isEmpty && t.all cls

/-- ` ?R` matched against a whole text, `R` given as a whole-text matcher. -/
def optSpaceThen (r : Str → Bool) (t : Str) : Bool :=
  r t || (match t with
    | 32 :: rest => r rest
    | _ => false)

/-- The alternatives `'s|'t|'re|'ve|'m|'ll|'d`. -/
def contractionAlt (t : Str) : Bool :=
  t = [39, 115] || t = [39, 116] || t = [39, 114, 101] || t = [39, 118, 101] ||
  t = [39, 109] || t = [39, 108, 108] || t = [39, 100]

/-- The alternative ` ?\[:alpha:]+` after the optional space. The bracket is escaped, so
this is the literal text `[:alpha:` followed by one or more `]` (a `]` outside a bracket
expression is read as an ordinary character). -/
def alphaAlt (t : Str) : Bool :=
  t.take 8 = [91, 58, 97, 108, 112, 104, 97, 58] && onePlus (fun c => c = 93) (t.drop 8)

/-- The bracket expression `[:digit:]`: not nested in a second bracket, so it is the set of
the characters `:`, `d`, `i`, `g`, `t`. -/
def digitSet (c : Nat) : Bool := c = 58 || c = 100 || c = 105 || c = 103 || c = 116

/-- The bracket expression `[^\s[:alpha:][:digit:]]`. -/
def otherSet (c : Nat) : Bool := !(isSpaceByte c || isAlphaByte c || isDigitByte c)

/-- `std::regex_match(m_text.cbegin(), m_text.cend(), match_result, expression)` for the
pattern of `TryMatch` (ECMAScript grammar): the WHOLE text has to match one alternative.
At the end of the text the lookahead `(?!\S)` holds, so the last two alternatives agree. -/
def expression_match (t : Str) : Bool :=
  contractionAlt t || optSpaceThen alphaAlt t || optSpaceThen (onePlus digitSet) t ||
  optSpaceThen (onePlus otherSet) t || onePlus isSpaceByte t || onePlus isSpaceByte t

/-- `class TokenWithRegularExp`. -/
structure TokenWithRegularExp where
  m_text : Str
deriving DecidableEq, Repr

/-- `TokenWithRegularExp::Set`. -/
def TokenWithRegularExp.Set (val : Str) : TokenWithRegularExp := { m_text := val }

/-- `TokenWithRegularExp::TryMatch`, for any whole-text matcher in the place of
`std::regex_match` with the pattern. On a match, sub-match 0 is the whole text, so
`match_result.begin()->length()` is the length `n` of `m_text`. Line 54 assigns the new
text to `m_text` before line 55 builds the result from the iterators of `match_result`,
which point into the storage of `m_text`: that storage then holds the new text, its
terminating 0, and behind them the bytes of the old text. The result is the first `n`
bytes of it, the matched text with its first byte overwritten by 0. Returns the result
and the object after the call. -/
def TokenWithRegularExp.TryMatchWith (regex_match : Str → Bool) (self : TokenWithRegularExp) :
    Str × TokenWithRegularExp :=
  if regex_match self.m_text then
    let n := self.m_text.length
    let text := self.m_text.drop n
    let storage := text ++ 0 :: self.m_text.drop (text.length + 1)
    (storage.take n, { m_text := text })
  else ([], self)

/-- The loop of `GetNextToken`, at most `fuel` iterations. -/
def TokenWithRegularExp.GetNextTokenLoop (regex_match : Str → Bool) :
    Nat → TokenWithRegularExp → (Bool × Str) × TokenWithRegularExp
  | 0, self => ((false, []), self)
  | fuel + 1, self =>
    if self.m_text ≠ [] then
      let r := TokenWithRegularExp.TryMatchWith regex_match self
      if r.1 = [] then
        TokenWithRegularExp.GetNextTokenLoop regex_match fuel { m_text := r.2.m_text.drop 1 }
      else ((true, r.1), r.2)
    else ((false, []), self)

/-- `GetNextToken` for any whole-text matcher: an iteration that does not return drops one
byte, so `m_text.length + 1` iterations are enough. -/
def TokenWithRegularExp.GetNextTokenWith (regex_match : Str → Bool)
    (self : TokenWithRegularExp) : (Bool × Str) × TokenWithRegularExp :=
  TokenWithRegularExp.GetNextTokenLoop regex_match (self.m_text.length + 1) self

/-- `TokenWithRegularExp::TryMatch`. -/
def TokenWithRegularExp.TryMatch (self : TokenWithRegularExp) : Str × TokenWithRegularExp :=
  TokenWithRegularExp.TryMatchWith expression_match self

/-- `TokenWithRegularExp::GetNextToken`: the returned pair and the object after the call. -/
def TokenWithRegularExp.GetNextToken (self : TokenWithRegularExp) :
    (Bool × Str) × TokenWithRegularExp :=
  TokenWithRegularExp.GetNextTokenWith expression_match self

/-! ## Special tokens (`SpecialTokenInfo`, `Add`, `SplitBySpeicalTokens`) -/

/-- `struct SpecialTokenInfo`. Its only constructor throws on an empty string, so every
object of the type has a non-empty `str`. -/
structure SpecialTokenInfo where
  str : Str
  id : Int
  str_nonempty : str ≠ []
deriving DecidableEq

/-- The constructor `SpecialTokenInfo(p_str, p_id)`. -/
def SpecialTokenInfo.ctor (p_str : Str) (p_id : Int) : Except String SpecialTokenInfo :=
  if h : p_str = [] then .error "Empty special token."
  else .ok { str := p_str, id := p_id, str_nonempty := h }

/-- The (literal, id) pair of a special token. -/
def SpecialTokenInfo.pair (st : SpecialTokenInfo) : Str × Int := (st.str, st.id)

/-- The data members of `class GPT2Tokenizer`. `unk_id_` has no initialiser: `none` is the
indeterminate value it has until it is assigned. -/
structure GPT2Tokenizer where
  byte_list_ : List Int
  token_list_ : List SpecialTokenInfo
  token_map_ : UMap Str Int
  bpe_map_ : BpeMap
  byte_encoder_ : List Int
  vocab_map_ : UMap Str Int
  id2token_map_ : List Str
  unk_id_ : Option Int
deriving DecidableEq

/-- The members as they are after construction of the object, before `Load`. -/
def GPT2Tokenizer.fresh : GPT2Tokenizer :=
  { byte_list_ := [], token_list_ := [], token_map_ := [], bpe_map_ := [],
    byte_encoder_ := List.replicate 256 0, vocab_map_ := [], id2token_map_ := [],
    unk_id_ := none }

/-- `GPT2Tokenizer::Add`: the outcome (`error` = the exception thrown) and the object
after the call, also after a throw. -/
def GPT2Tokenizer.Add (p_str : Str) (p_id : Int) (self : GPT2Tokenizer) :
    Except String Unit × GPT2Tokenizer :=
  match UMap.find self.token_map_ p_str with
  | some second =>
    if second ≠ p_id then (.error "Duplicate special tokens.", self) else (.ok (), self)
  | none =>
    let self1 := { self with token_map_ := UMap.assign self.token_map_ p_str p_id }
    match SpecialTokenInfo.ctor p_str p_id with
    | .error e => (.error e, self1)
    | .ok st => (.ok (), { self1 with token_list_ := self1.token_list_ ++ [st] })

/-- The states of the special-token members that successful `Add` calls build, starting
from the fresh object. -/
inductive AddReachable : GPT2Tokenizer → Prop where
  | fresh : AddReachable GPT2Tokenizer.fresh
  | add (self : GPT2Tokenizer) (p_str : Str) (p_id : Int) :
      AddReachable self → (GPT2Tokenizer.Add p_str p_id self).1 = .ok () →
      AddReachable (GPT2Tokenizer.Add p_str p_id self).2

/-- A segment of `SplitBySpeicalTokens`: the text and its tag (`-1` = not a special token). -/
abbrev Segment := Str × Int

/-- `std::search(it, end, needle.begin(), needle.end()) - it`: the offset of the first
occurrence of `needle` in `hay`; the length of `hay` (the end iterator) when there is none.
An empty needle is found at offset 0. -/
def search : Str → Str → Nat
  | [], _ => 0
  | c :: t, needle => if needle.isPrefixOf (c :: t) then 0 else search t needle + 1

/-- The `while` loop of `SplitBySpeicalTokens` (lines 143-157) on one untagged segment, at
most `fuel` iterations. `it` and `search_pos` always denote the same position of
`str.first`; `rest` is the text from that position on, so `rest.take k` is
`str.first.substr(search_pos, k)`. The result is what the loop appends to
`new_split_res`. -/
def splitLoop (st : SpecialTokenInfo) : Nat → Str → List Segment
  | 0, _ => []
  | fuel + 1, rest =>
    if rest ≠ [] then
      let k := search rest st.str
      if k = rest.length then [(rest, -1)]
      else
        (if k ≠ 0 then [(rest.take k, -1)] else []) ++
          ((rest.drop k).take st.str.length, st.id) ::
            splitLoop st fuel (rest.drop (k + st.str.length))
    else []

/-- The body of the loop over `res` (lines 136-158) for one segment: `st.str` is not
empty, so every iteration of the `while` consumes a byte and `str.first.length` iterations
are enough (`splitLoop_unfold`). -/
def splitSegment (st : SpecialTokenInfo) (seg : Segment) : List Segment :=
  if seg.2 ≠ -1 then [seg] else splitLoop st seg.1.length seg.1

/-- One iteration of the loop over `token_list_` (lines 135-159): the new `res`. -/
def splitPass (st : SpecialTokenInfo) (res : List Segment) : List Segment :=
  res.flatMap (splitSegment st)

/-- `GPT2Tokenizer::SplitBySpeicalTokens`. -/
def GPT2Tokenizer.SplitBySpeicalTokens (token_list_ : List SpecialTokenInfo) (input : Str) :
    List Segment :=
  token_list_.foldl (fun res st => splitPass st res) [(input, -1)]

/-! ## `Tokenize` -/

/-- The `int64_t` cap as it is compared with `res.size()`: converted to `size_t`, of 64
bits. -/
def capOf (max_length : Int) : Nat := (max_length % 2 ^ 64).toNat

/-- The predicate handed to `std::all_of` at line 85 (`isblank`: space or tab). The range
it is handed with is empty, so it is never applied. -/
def isblank (s : Str) : Bool := s.all (fun c => c = 32 || c = 9)

/-- Lines 119-125: the ids of one fragment are converted and appended up to the cap. -/
def emitIds (ConvertIdToToken : Int → Str) (max_length : Int) : List Int → List Str → List Str
  | [], res => res
  | p :: ps, res =>
    if res.length ≥ capOf max_length then res
    else emitIds ConvertIdToToken max_length ps (res ++ [ConvertIdToToken p])

/-- The `while (res.size() < max_length)` loop (lines 104-126) over the fragments of one
untagged segment, at most `fuel` iterations. -/
def fragmentLoop (self : GPT2Tokenizer) (ConvertIdToToken : Int → Str) (max_length : Int) :
    Nat → TokenWithRegularExp → List Str → List Str
  | 0, _, res => res
  | fuel + 1, reg, res =>
    if res.length < capOf max_length then
      let token := TokenWithRegularExp.GetNextToken reg
      if !token.1.1 then res
      else
        let byte_list_ := token.1.2.map (fun cp => self.byte_encoder_.getD (cp % 256) 0)
        let byte_list_ := GPT2Tokenizer.bpe self.bpe_map_ byte_list_
        fragmentLoop self ConvertIdToToken max_length fuel token.2
          (emitIds ConvertIdToToken max_length byte_list_ res)
    else res

/-- The loop over the segments (lines 91-127). A fragment is not empty, so the fragment
loop of a segment runs at most once more than the segment has bytes
(`fragmentLoop_unfold`). -/
def segmentLoop (self : GPT2Tokenizer) (ConvertIdToToken : Int → Str) (max_length : Int) :
    List Segment → List Str → List Str
  | [], res => res
  | seg_id :: rest, res =>
    if res.length ≥ capOf max_length then res
    else if seg_id.2 ≠ -1 then
      segmentLoop self ConvertIdToToken max_length rest (res ++ [seg_id.1])
    else
      segmentLoop self ConvertIdToToken max_length rest
        (fragmentLoop self ConvertIdToToken max_length (seg_id.1.length + 1)
          (TokenWithRegularExp.Set seg_id.1) res)

/-- `Tokenize` from line 89 on, started with the accumulator `res`. -/
def GPT2Tokenizer.TokenizeFrom (self : GPT2Tokenizer) (ConvertIdToToken : Int → Str)
    (input : Str) (max_length : Int) (res : List Str) : List Str :=
  segmentLoop self ConvertIdToToken max_length
    (GPT2Tokenizer.SplitBySpeicalTokens self.token_list_ input) res

/-- `GPT2Tokenizer::Tokenize`. `ConvertIdToToken` is the member function of the base class
`Tokenizer`. The test of line 85 is made on the accumulator `res`. -/
def GPT2Tokenizer.Tokenize (self : GPT2Tokenizer) (ConvertIdToToken : Int → Str)
    (input : Str) (max_length : Int) : List Str :=
  let res : List Str := []
  if res.all isblank then res
  else GPT2Tokenizer.TokenizeFrom self ConvertIdToToken input max_length res

/-! ## `Load` -/

/-- `str_convert.to_bytes(c)`: the UTF-8 encoding of the code point `c`. -/
def to_bytes (c : Nat) : Str :=
  if c < 128 then [c]
  else if c < 2048 then [192 + c / 64, 128 + c % 64]
  else if c < 65536 then [224 + c / 4096, 128 + c / 64 % 64, 128 + c % 64]
  else [240 + c / 262144, 128 + c / 4096 % 64, 128 + c / 64 % 64, 128 + c % 64]

/-- The state of the loops of lines 183-200: the table as a list of the (byte, code point)
assignments made so far, in the order they are made, and the counter `index`. -/
structure ByteTable where
  assigned : List (Nat × Nat)
  index : Nat
deriving DecidableEq, Repr

/-- The bodies of the loops of lines 183-191: `byte_encoder_[i]` gets the character `i`. -/
def assignOwn (i : Nat) (s : ByteTable) : ByteTable :=
  { s with assigned := s.assigned ++ [(i, i)] }

/-- The bodies of the loops of lines 194-200: `byte_encoder_[i]` gets the character
`index++`. -/
def assignNext (i : Nat) (s : ByteTable) : ByteTable :=
  { assigned := s.assigned ++ [(i, s.index)], index := s.index + 1 }

/-- `for (auto i = lo; i < hi; ++i) body`. -/
def forRange {σ : Type} (lo hi : Nat) (body : Nat → σ → σ) (s : σ) : σ :=
  (List.range' lo (hi - lo)).foldl (fun acc i => body i acc) s

/-- Lines 183-200: every assignment to `byte_encoder_`, as (byte, code point), in order. -/
def byteAssignments : List (Nat × Nat) :=
  let s : ByteTable := { assigned := [], index := 0 }
  let s := forRange 33 (126 + 1) assignOwn s
  let s := forRange 161 (172 + 1) assignOwn s
  let s := forRange 174 (255 + 1) assignOwn s
  let s := { s with index := 256 }
  let s := forRange 0 33 assignNext s
  let s := forRange 127 161 assignNext s
  let s := assignNext 173 s
  s.assigned

/-- The code point whose character byte `b` is given by lines 183-200: the one of the last
assignment to `byte_encoder_[b]` (0 if there were none). -/
def byteCodePoint (b : Nat) : Nat :=
  match (byteAssignments.reverse.find? (fun a => a.1 = b)) with
  | some a => a.2
  | none => 0

/-- Bytes that lines 183-191 give the character with their own code point: the ranges
[33, 126], [161, 172] and [174, 255]. -/
def isOwnByte (b : Nat) : Bool :=
  (33 ≤ b && b ≤ 126) || (161 ≤ b && b ≤ 172) || (174 ≤ b && b ≤ 255)

/-- The assignments of lines 183-200 in closed form. -/
def byteAssignmentsClosed : List (Nat × Nat) :=
  (List.range' 33 94).map (fun i => (i, i)) ++ (List.range' 161 12).map (fun i => (i, i)) ++
  (List.range' 174 82).map (fun i => (i, i)) ++ (List.range' 0 33).map (fun i => (i, 256 + i)) ++
  (List.range' 127 34).map (fun i => (i, 162 + i)) ++ [(173, 323)]

/-- The code point of a byte in closed form. -/
def byteCodePointClosed (b : Nat) : Nat :=
  if isOwnByte b then b else if b < 33 then 256 + b else if b < 161 then 162 + b else 323

/-- A `ConvertTokenToId` that gives the character of a code point below 2048 that code
point as its id. -/
def codePointId (s : Str) : Int :=
  match s with
  | [c] => (c : Nat)
  | [c1, c2] => ((c1 - 192) * 64 + (c2 - 128) : Nat)
  | _ => 0

/-- Lines 182-200: the assignments made to `byte_encoder_`, which is `int[256]`.
`ConvertTokenToId` is the member function of the base class `Tokenizer`. -/
def loadByteEncoder (ConvertTokenToId : Str → Int) (byte_encoder_ : List Int) : List Int :=
  byteAssignments.foldl (fun tbl a => tbl.set a.1 (ConvertTokenToId (to_bytes a.2)))
    byte_encoder_

/-- Lines 165-180: the vocabulary is read from the members of the JSON object, then the
unknown token is looked up. In the branch that adds the token nothing is assigned to
`unk_id_`. -/
def loadVocab (members : List (Str × Int)) (unk_token : Str) (self : GPT2Tokenizer) :
    GPT2Tokenizer :=
  let vocab_map_ := members.foldl (fun m ite => UMap.insert m ite.1 ite.2) ([] : UMap Str Int)
  match UMap.find vocab_map_ unk_token with
  | some second => { self with vocab_map_ := vocab_map_, unk_id_ := some second }
  | none =>
    let id : Int := (UMap.size vocab_map_ : Nat)
    { self with vocab_map_ := UMap.assign vocab_map_ unk_token id }

/-- `std::regex_replace(line, std::regex("\r"), "")`. -/
def stripCR (line : Str) : Str := line.filter (fun c => c ≠ 13)

/-- `line.find(' ')`, `none` standing for `npos`. -/
def findSpace : Str → Option Nat
  | [] => none
  | c :: t => if c = 32 then some 0 else (findSpace t).map (fun n => n + 1)

/-- The `while (std::getline(merges_stream, line))` loop (lines 204-220) on the lines that
are left, from the table and the counter `index` reached so far. -/
def loadMerges (ConvertTokenToId : Str → Int) :
    List Str → BpeMap × Int → Except String (BpeMap × Int)
  | [], s => .ok s
  | line0 :: lines, (bpe_map_, index) =>
    let line := stripCR line0
    if line = [] then loadMerges ConvertTokenToId lines (bpe_map_, index)
    else if line.head? = some 35 ∧ index = 0 then
      loadMerges ConvertTokenToId lines (bpe_map_, index)
    else
      match findSpace line with
      | none => .error "Cannot know how to parse line: "
      | some pos =>
        let w1 := line.take pos
        let w2 := line.drop (pos + 1)
        let key := (ConvertTokenToId w1, ConvertTokenToId w2)
        let value : BpeNode := { id := ConvertTokenToId (w1 ++ w2), value := index }
        loadMerges ConvertTokenToId lines (UMap.assign bpe_map_ key value, index + 1)

/-- The words that `istrea >> line` reads: the maximal runs without whitespace.
`cur` is the run being read. -/
def wordsFrom : Str → Str → List Str
  | [], cur => if cur = [] then [] else [cur]
  | c :: t, cur =>
    if isSpaceByte c then (if cur = [] then wordsFrom t [] else cur :: wordsFrom t [])
    else wordsFrom t (cur ++ [c])

/-- The `while (istrea >> line)` loop (lines 225-237) on the words that are left. -/
def loadSpecialTokens : List Str → GPT2Tokenizer → Except String GPT2Tokenizer
  | [], self => .ok self
  | line0 :: rest, self =>
    if line0 = [] then loadSpecialTokens rest self
    else
      let line := stripCR line0
      let self1 :=
        match UMap.find self.vocab_map_ line with
        | some second => (second, self)
        | none =>
          let id : Int := (UMap.size self.vocab_map_ : Nat)
          (id, { self with vocab_map_ := UMap.assign self.vocab_map_ line id })
      match GPT2Tokenizer.Add line self1.1 self1.2 with
      | (.error e, _) => .error e
      | (.ok _, self2) => loadSpecialTokens rest self2

/-- Lines 240-243: `id2token_map_` is resized to the size of the vocabulary, then every
entry of the vocabulary is written at its id, in the order of the list that stands for the
map. A write outside the array is undefined in the source and is left out here. -/
def loadId2Token (self : GPT2Tokenizer) : GPT2Tokenizer :=
  let n := UMap.size self.vocab_map_
  let resized := self.id2token_map_.take n ++ List.replicate (n - self.id2token_map_.length) []
  let filled := self.vocab_map_.foldl
    (fun tbl ite => if 0 ≤ ite.2 then tbl.set ite.2.toNat ite.1 else tbl) resized
  { self with id2token_map_ := filled }

/-- `GPT2Tokenizer::Load`. `members` are the members of the JSON object of `vocab_stream`
in the order of the document, `merges_lines` the lines that `std::getline` reads from
`merges_stream`. The result is the object after the call; `error` is an exception. -/
def GPT2Tokenizer.Load (ConvertTokenToId : Str → Int) (members : List (Str × Int))
    (merges_lines : List Str) (unk_token : Str) (special_tokens : Str)
    (self : GPT2Tokenizer) : Except String GPT2Tokenizer :=
  let self := loadVocab members unk_token self
  let self := { self with byte_encoder_ := loadByteEncoder ConvertTokenToId self.byte_encoder_ }
  match loadMerges ConvertTokenToId merges_lines (self.bpe_map_, 0) with
  | .error e => .error e
  | .ok merged =>
    let self := { self with bpe_map_ := merged.1 }
    let loaded :=
      if special_tokens ≠ [] then loadSpecialTokens (wordsFrom special_tokens []) self
      else .ok self
    match loaded with
    | .error e => .error e
    | .ok self => .ok (loadId2Token self)

/-- A tokenizer whose vocabulary gives every single byte `c` the id `c`: the byte table is
the identity, there is no merge rule and no special token. -/
def plainTokenizer : GPT2Tokenizer :=
  { GPT2Tokenizer.fresh with byte_encoder_ := (List.range 256).map (fun c => (c : Int)) }

/-- `ConvertIdToToken` for the vocabulary of `plainTokenizer`. -/
def plainIdToToken (id : Int) : Str := [id.toNat]

/-- The ids of the vocabulary are a bijection onto [0, N), N the number of its entries: no
token occurs twice and the ids are a rearrangement of 0, ..., N - 1. -/
def VocabBijective (vocab_map_ : UMap Str Int) : Prop :=
  (vocab_map_.map Prod.fst).Nodup ∧
  (vocab_map_.map Prod.snd).Perm ((List.range vocab_map_.length).map Int.ofNat)

/-- The reference "replace all" of the specification of the merge engine: scanning left to
right, every occurrence of the adjacent values `a`, `b` that does not overlap an
occurrence already replaced is replaced by `c`; every other element is kept. -/
def replaceAllRef (a b c : Int) : List Int → List Int
  | [] => []
  | [x] => [x]
  | x :: y :: t =>
    if x = a ∧ y = b then c :: replaceAllRef a b c t else x :: replaceAllRef a b c (y :: t)

/-- The number of iterations of the outer loop of `bpe` that merge, out of at most `fuel`
iterations (`bpeLoop` with a counter). -/
def bpeMergeCount (bpe_map_ : BpeMap) : Nat → List Int → Nat
  | 0, _ => 0
  | fuel + 1, vals =>
    match bpeStep bpe_map_ vals with
    | none => 0
    | some vals1 => bpeMergeCount bpe_map_ fuel vals1 + 1

/-- The fragments that successive calls of `GetNextToken` return, up to the first call that
returns `false`, out of at most `fuel` calls. -/
def fragmentsLoop (regex_match : Str → Bool) : Nat → TokenWithRegularExp → List Str
  | 0, _ => []
  | fuel + 1, self =>
    let r := TokenWithRegularExp.GetNextTokenWith regex_match self
    if r.1.1 then r.1.2 :: fragmentsLoop regex_match fuel r.2 else []

/-- The fragments produced from a text: a returned fragment is not empty, so one more call
than the text has bytes is enough (`fragments_unfold`). -/
def fragments (regex_match : Str → Bool) (text : Str) : List Str :=
  fragmentsLoop regex_match (text.length + 1) (TokenWithRegularExp.Set text)

/-- An id -> token map for `tableAB`: 1, 2, 3 are "a", "b", "c"; 4 is "ab"; 5 is "bc". -/
def tokenAB (id : Int) : Str :=
  if id = 1 then ascii "a" else if id = 2 then ascii "b" else if id = 3 then ascii "c"
  else if id = 4 then ascii "ab" else if id = 5 then ascii "bc" else []

/-! ## The cap of `Tokenize` -/

theorem capOf_eq (k : Int) (h0 : 0 ≤ k) (h1 : k < 2 ^ 63) : capOf k = k.toNat := by
  unfold capOf
  rw [Int.emod_eq_of_lt h0 (by omega)]

theorem emitIds_length_le (conv : Int → Str) (k : Int) (ps : List Int) :
    ∀ res : List Str, res.length ≤ capOf k → (emitIds conv k ps res).length ≤ capOf k := by
  induction ps with
  | nil => intro res h; simpa [emitIds] using h
  | cons p ps ih =>
    intro res h
    unfold emitIds
    split
    · exact h
    · apply ih
      simp only [List.length_append, List.length_singleton]
      omega

theorem fragmentLoop_length_le (self : GPT2Tokenizer) (conv : Int → Str) (k : Int)
    (fuel : Nat) :
    ∀ (reg : TokenWithRegularExp) (res : List Str), res.length ≤ capOf k →
      (fragmentLoop self conv k fuel reg res).length ≤ capOf k := by
  induction fuel with
  | zero => intro reg res h; simpa [fragmentLoop] using h
  | succ fuel ih =>
    intro reg res h
    unfold fragmentLoop
    split
    · dsimp only
      split
      · exact h
      · exact ih _ _ (emitIds_length_le conv k _ res h)
    · exact h

theorem segmentLoop_length_le (self : GPT2Tokenizer) (conv : Int → Str) (k : Int)
    (segs : List Segment) :
    ∀ res : List Str, res.length ≤ capOf k →
      (segmentLoop self conv k segs res).length ≤ capOf k := by
  induction segs with
  | nil => intro res h; simpa [segmentLoop] using h
  | cons seg segs ih =>
    intro res h
    unfold segmentLoop
    split
    · exact h
    · split
      · apply ih
        simp only [List.length_append, List.length_singleton]
        omega
      · exact ih _ (fragmentLoop_length_le self conv k _ _ res h)

/-- C1: for every text, every tokenizer state and every cap `k ≥ 0` (an `int64_t`),
`Tokenize(text, k)` returns at most `k` tokens, and none for `k = 0`. The same holds of
the loops after the test of line 85 (`TokenizeFrom`, started with the empty accumulator),
which enforce the cap by themselves. -/
theorem Tokenize_length_le_cap (self : GPT2Tokenizer) (ConvertIdToToken : Int → Str)
    (input : Str) (k : Int) (h0 : 0 ≤ k) (h1 : k < 2 ^ 63) :
    ((GPT2Tokenizer.Tokenize self ConvertIdToToken input k).length : Int) ≤ k ∧
    ((GPT2Tokenizer.TokenizeFrom self ConvertIdToToken input k []).length : Int) ≤ k ∧
    GPT2Tokenizer.Tokenize self ConvertIdToToken input 0 = [] ∧
    GPT2Tokenizer.TokenizeFrom self ConvertIdToToken input 0 [] = [] := by
  have hfrom : ∀ j : Int, 0 ≤ j → j < 2 ^ 63 →
      ((GPT2Tokenizer.TokenizeFrom self ConvertIdToToken input j []).length : Int) ≤ j := by
    intro j hj0 hj1
    have h := segmentLoop_length_le self ConvertIdToToken j
      (GPT2Tokenizer.SplitBySpeicalTokens self.token_list_ input) [] (by simp)
    rw [capOf_eq j hj0 hj1] at h
    unfold GPT2Tokenizer.TokenizeFrom
    omega
  refine ⟨?_, hfrom k h0 h1, ?_, ?_⟩
  · simp [GPT2Tokenizer.Tokenize, h0]
  · simp [GPT2Tokenizer.Tokenize]
  · have h := hfrom 0 (le_refl 0) (by norm_num)
    have h2 : (GPT2Tokenizer.TokenizeFrom self ConvertIdToToken input 0 []).length = 0 := by
      omega
    exact List.length_eq_zero.mp h2

/-- C1, at the text "ab cd" with cap 3. -/
theorem Tokenize_length_le_cap_witness :
    ((GPT2Tokenizer.Tokenize plainTokenizer plainIdToToken (ascii "ab cd") 3).length : Int) ≤ 3 ∧
    ((GPT2Tokenizer.TokenizeFrom plainTokenizer plainIdToToken (ascii "ab cd") 3 []).length
      : Int) ≤ 3 ∧
    GPT2Tokenizer.Tokenize plainTokenizer plainIdToToken (ascii "ab cd") 0 = [] ∧
    GPT2Tokenizer.TokenizeFrom plainTokenizer plainIdToToken (ascii "ab cd") 0 [] = [] :=
  Tokenize_length_le_cap plainTokenizer plainIdToToken (ascii "ab cd") 3 (by decide)
    (by decide)

/-- C2: with the vocabulary of all single bytes, no merge rule and no special token,
`Tokenize("hello", 5)` returns no token at all, not the five tokens "h", "e", "l", "l",
"o": the test of line 85 holds of the empty accumulator. The loops after that test return
no token for this text either, as no suffix of "hello" matches the pattern as a whole. -/
theorem Tokenize_hello :
    GPT2Tokenizer.Tokenize plainTokenizer plainIdToToken (ascii "hello") 5 = [] ∧
    GPT2Tokenizer.TokenizeFrom plainTokenizer plainIdToToken (ascii "hello") 5 [] = [] ∧
    GPT2Tokenizer.Tokenize plainTokenizer plainIdToToken (ascii "hello") 5 ≠
      [ascii "h", ascii "e", ascii "l", ascii "l", ascii "o"] := by
  refine ⟨by decide, by decide, by decide⟩

/-! ## The special-token splitter -/

theorem search_le (needle : Str) : ∀ hay : Str, search hay needle ≤ hay.length := by
  intro hay
  induction hay with
  | nil => simp [search]
  | cons c t ih =>
    unfold search
    split
    · omega
    · simp only [List.length_cons]; omega

theorem search_found (needle : Str) :
    ∀ hay : Str, search hay needle < hay.length →
      (hay.drop (search hay needle)).take needle.length = needle := by
  intro hay
  induction hay with
  | nil => intro h; simp [search] at h
  | cons c t ih =>
    intro h
    unfold search at h ⊢
    split
    · next hp =>
      rw [List.isPrefixOf_iff_prefix] at hp
      simpa using (List.prefix_iff_eq_take.mp hp).symm
    · next hp =>
      rw [if_neg hp] at h
      simp only [List.length_cons] at h
      simpa using ih (by omega)

theorem search_lt_of_infix (needle : Str) (hne : needle ≠ []) :
    ∀ hay : Str, needle <:+: hay → search hay needle < hay.length := by
  intro hay
  induction hay with
  | nil => intro h; exact absurd (List.infix_nil.mp h) hne
  | cons c t ih =>
    intro h
    unfold search
    split
    · simp
    · next hp =>
      rw [List.isPrefixOf_iff_prefix] at hp
      rcases List.infix_cons_iff.mp h with h1 | h1
      · exact absurd h1 hp
      · have := ih h1
        simp only [List.length_cons]; omega

theorem splitLoop_tagged (st : SpecialTokenInfo) (fuel : Nat) :
    ∀ rest : Str, ∀ seg ∈ splitLoop st fuel rest, seg.2 = -1 ∨ seg = st.pair := by
  induction fuel with
  | zero => intro rest seg h; simp [splitLoop] at h
  | succ fuel ih =>
    intro rest seg h
    unfold splitLoop at h
    split at h
    · dsimp only at h
      split at h
      · simp only [List.mem_singleton] at h
        left; rw [h]
      · next hk =>
        have hlt : search rest st.str < rest.length := by
          have := search_le st.str rest
          omega
        rw [search_found st.str rest hlt] at h
        rcases List.mem_append.mp h with h1 | h1
        · split at h1
          · simp only [List.mem_singleton] at h1
            left; rw [h1]
          · simp at h1
        · rcases List.mem_cons.mp h1 with h2 | h2
          · right; exact h2
          · exact ih _ seg h2
    · simp at h

theorem splitLoop_join (st : SpecialTokenInfo) (fuel : Nat) :
    ∀ rest : Str, rest.length ≤ fuel →
      ((splitLoop st fuel rest).map Prod.fst).flatten = rest := by
  induction fuel with
  | zero =>
    intro rest h
    have : rest = [] := List.length_eq_zero.mp (by omega)
    simp [splitLoop, this]
  | succ fuel ih =>
    intro rest h
    unfold splitLoop
    split
    · next hne =>
      dsimp only
      split
      · simp
      · next hk =>
        have hlt : search rest st.str < rest.length := by
          have := search_le st.str rest
          omega
        have hlen : 0 < st.str.length := List.length_pos.mpr st.str_nonempty
        have hrec := ih (rest.drop (search rest st.str + st.str.length))
          (by simp only [List.length_drop]; omega)
        have hsplit : rest = rest.take (search rest st.str) ++
            ((rest.drop (search rest st.str)).take st.str.length ++
              rest.drop (search rest st.str + st.str.length)) := by
          rw [← List.drop_drop, List.take_append_drop, List.take_append_drop]
        simp only [List.map_append, List.map_cons, List.flatten_append, List.flatten_cons, hrec]
        split
        · simp only [List.map_cons, List.map_nil, List.flatten_cons, List.flatten_nil,
            List.append_nil]
          exact hsplit.symm
        · next h0 =>
          have h0 : search rest st.str = 0 := by omega
          simp only [List.map_nil, List.flatten_nil, List.nil_append]
          rw [h0] at hsplit ⊢
          simp
    · next hne =>
      have : rest = [] := by simpa using hne
      simp [this]

theorem splitLoop_fuel (st : SpecialTokenInfo) (fuel1 : Nat) :
    ∀ (fuel2 : Nat) (rest : Str), rest.length ≤ fuel1 → rest.length ≤ fuel2 →
      splitLoop st fuel1 rest = splitLoop st fuel2 rest := by
  induction fuel1 with
  | zero =>
    intro fuel2 rest h1 _
    have : rest = [] := List.length_eq_zero.mp (by omega)
    subst this
    cases fuel2 <;> simp [splitLoop]
  | succ fuel1 ih =>
    intro fuel2 rest h1 h2
    cases fuel2 with
    | zero =>
      have : rest = [] := List.length_eq_zero.mp (by omega)
      subst this
      simp [splitLoop]
    | succ fuel2 =>
      unfold splitLoop
      split
      · dsimp only
        split
        · rfl
        · next hk =>
          have hlen : 0 < st.str.length := List.length_pos.mpr st.str_nonempty
          have hlt : search rest st.str < rest.length := by
            have := search_le st.str rest
            omega
          rw [ih fuel2 (rest.drop (search rest st.str + st.str.length))
            (by simp only [List.length_drop]; omega)
            (by simp only [List.length_drop]; omega)]
      · rfl

/-- The loop of lines 143-157 as a recursion on the text that is left: the fuel of
`splitSegment` is enough. -/
theorem splitLoop_unfold (st : SpecialTokenInfo) (rest : Str) :
    splitLoop st rest.length rest =
      if rest = [] then []
      else if search rest st.str = rest.length then [(rest, -1)]
      else
        (if search rest st.str ≠ 0 then [(rest.take (search rest st.str), -1)] else []) ++
          (st.str, st.id) ::
            splitLoop st (rest.drop (search rest st.str + st.str.length)).length
              (rest.drop (search rest st.str + st.str.length)) := by
  cases rest with
  | nil => simp [splitLoop]
  | cons c t =>
    have hlen : 0 < st.str.length := List.length_pos.mpr st.str_nonempty
    rw [List.length_cons, splitLoop]
    simp only [ne_eq, reduceCtorEq, not_false_eq_true, ↓reduceIte, List.length_cons]
    split
    · rfl
    · next hk =>
      have hlt : search (c :: t) st.str < (c :: t).length := by
        have := search_le st.str (c :: t)
        simp only [List.length_cons] at this ⊢
        omega
      rw [search_found st.str (c :: t) hlt]
      rw [splitLoop_fuel st t.length _ (List.drop (search (c :: t) st.str + st.str.length) (c :: t))
        (by simp only [List.length_drop, List.length_cons]; omega) (le_refl _)]

theorem splitSegment_tagged (st : SpecialTokenInfo) (seg : Segment) :
    ∀ out ∈ splitSegment st seg, out.2 = -1 ∨ out = st.pair ∨ out = seg := by
  intro out h
  unfold splitSegment at h
  split at h
  · right; right; simpa using h
  · rcases splitLoop_tagged st _ _ out h with h1 | h1
    · left; exact h1
    · right; left; exact h1

theorem splitSegment_join (st : SpecialTokenInfo) (seg : Segment) :
    ((splitSegment st seg).map Prod.fst).flatten = seg.1 := by
  unfold splitSegment
  split
  · simp
  · exact splitLoop_join st _ _ (le_refl _)

theorem splitPass_join (st : SpecialTokenInfo) (res : List Segment) :
    ((splitPass st res).map Prod.fst).flatten = (res.map Prod.fst).flatten := by
  induction res with
  | nil => simp [splitPass]
  | cons seg res ih =>
    simp only [splitPass, List.flatMap_cons, List.map_append, List.flatten_append,
      List.map_cons, List.flatten_cons] at ih ⊢
    rw [ih, splitSegment_join]

theorem splitFold_join (ts : List SpecialTokenInfo) :
    ∀ res : List Segment,
      ((ts.foldl (fun res st => splitPass st res) res).map Prod.fst).flatten =
        (res.map Prod.fst).flatten := by
  induction ts with
  | nil => intro res; rfl
  | cons st ts ih =>
    intro res
    rw [List.foldl_cons, ih, splitPass_join]

theorem splitFold_tagged (all : List SpecialTokenInfo) (ts : List SpecialTokenInfo) :
    ∀ res : List Segment, (∀ st ∈ ts, st ∈ all) →
      (∀ seg ∈ res, seg.2 = -1 ∨ ∃ st ∈ all, st.pair = seg) →
      ∀ seg ∈ ts.foldl (fun res st => splitPass st res) res,
        seg.2 = -1 ∨ ∃ st ∈ all, st.pair = seg := by
  induction ts with
  | nil => intro res _ h; exact h
  | cons st ts ih =>
    intro res hts h
    rw [List.foldl_cons]
    apply ih
    · intro st1 h1; exact hts st1 (List.mem_cons_of_mem _ h1)
    · intro out hout
      simp only [splitPass, List.mem_flatMap] at hout
      obtain ⟨seg, hseg, hmem⟩ := hout
      rcases splitSegment_tagged st seg out hmem with h1 | h1 | h1
      · left; exact h1
      · right; exact ⟨st, hts st (List.mem_cons_self _ _), h1.symm⟩
      · rw [h1]; exact h seg hseg

theorem splitFirst_claims (st : SpecialTokenInfo) (input : Str) (h : st.str <:+: input) :
    st.pair ∈ splitPass st [(input, -1)] := by
  have hne : input ≠ [] := by
    intro h0
    rw [h0] at h
    exact st.str_nonempty (List.infix_nil.mp h)
  have hlt := search_lt_of_infix st.str st.str_nonempty input h
  simp only [splitPass, List.flatMap_cons, List.flatMap_nil, List.append_nil, splitSegment,
    ne_eq, not_true_eq_false, ↓reduceIte]
  rw [splitLoop_unfold, if_neg hne, if_neg (by omega)]
  simp [SpecialTokenInfo.pair]

/-- C3: `SplitBySpeicalTokens` returns segments whose texts, joined in order, are the input;
a segment with a tag other than `-1` is exactly a registered special token, literal and
id; every other segment has the tag `-1`. With `<sos>` and `<eos>` registered in this
order under any ids, `"<sos> hi <eos>"` is split into `<sos>` (tagged), `" hi "`
(untagged), `<eos>` (tagged). -/
theorem SplitBySpeicalTokens_segments (token_list_ : List SpecialTokenInfo) (input : Str)
    (sos eos : Int) :
    (∀ seg ∈ GPT2Tokenizer.SplitBySpeicalTokens token_list_ input,
      seg.2 = -1 ∨ ∃ st ∈ token_list_, st.str = seg.1 ∧ st.id = seg.2) ∧
    ((GPT2Tokenizer.SplitBySpeicalTokens token_list_ input).map Prod.fst).flatten = input ∧
    GPT2Tokenizer.SplitBySpeicalTokens
        [{ str := ascii "<sos>", id := sos, str_nonempty := by decide },
         { str := ascii "<eos>", id := eos, str_nonempty := by decide }]
        (ascii "<sos> hi <eos>") =
      [(ascii "<sos>", sos), (ascii " hi ", -1), (ascii "<eos>", eos)] := by
  refine ⟨?_, ?_, ?_⟩
  · intro seg hseg
    rcases splitFold_tagged token_list_ token_list_ [(input, -1)] (fun _ h => h)
        (by intro s hs; left; simp only [List.mem_singleton] at hs; rw [hs]) seg hseg with h | h
    · left; exact h
    · right
      obtain ⟨st, hst, hp⟩ := h
      refine ⟨st, hst, ?_, ?_⟩
      · rw [← hp]; rfl
      · rw [← hp]; rfl
  · unfold GPT2Tokenizer.SplitBySpeicalTokens
    rw [splitFold_join]
    simp
  · have e1 : ascii "<sos>" = [60, 115, 111, 115, 62] := by decide
    have e2 : ascii "<eos>" = [60, 101, 111, 115, 62] := by decide
    have e3 : ascii "<sos> hi <eos>" =
        [60, 115, 111, 115, 62, 32, 104, 105, 32, 60, 101, 111, 115, 62] := by decide
    have e4 : ascii " hi " = [32, 104, 105, 32] := by decide
    simp only [e1, e2, e3, e4]
    by_cases h : sos = -1
    · subst h
      simp [GPT2Tokenizer.SplitBySpeicalTokens, splitPass, splitSegment, splitLoop, search]
    · simp [GPT2Tokenizer.SplitBySpeicalTokens, splitPass, splitSegment, splitLoop, search, h]

theorem splitFold_nil (ts : List SpecialTokenInfo) :
    ts.foldl (fun res st => splitPass st res) [] = [] := by
  induction ts with
  | nil => rfl
  | cons st ts ih => rw [List.foldl_cons]; exact ih

theorem pairAt_nil (j : Nat) : pairAt [] j = none := by
  simp [pairAt]

theorem pairAt_singleton (a : Int) (j : Nat) : pairAt [a] j = none := by
  cases j <;> simp [pairAt]

theorem pairAt_zero (a b : Int) (t : List Int) : pairAt (a :: b :: t) 0 = some (a, b) := by
  simp [pairAt]

theorem pairAt_succ (a : Int) (l : List Int) (j : Nat) : pairAt (a :: l) (j + 1) = pairAt l j := by
  simp [pairAt]

theorem pairAt_bound : ∀ (l : List Int) (j : Nat) (pr : Int × Int),
    pairAt l j = some pr → j + 1 < l.length := by
  intro l
  induction l with
  | nil => intro j pr h; simp [pairAt_nil] at h
  | cons a l ih =>
    intro j pr h
    cases j with
    | zero =>
      cases l with
      | nil => simp [pairAt_singleton] at h
      | cons b t => simp
    | succ j =>
      rw [pairAt_succ] at h
      have := ih j pr h
      simp only [List.length_cons]
      omega

/-- What the scan loop leaves in its locals: either nothing was selected and every pair
of the table met has a rank not below the running minimum, or the selected position holds
a pair of the table with the lowest rank met, strictly lower than the ranks before it. -/
theorem bpeScanFrom_spec (m : BpeMap) : ∀ (l : List Int) (i : Nat) (s : BpeScan),
    (bpeScanFrom m i l s = s ∧
      ∀ (j : Nat) (pr : Int × Int) (nd : BpeNode),
        pairAt l j = some pr → UMap.find m pr = some nd → s.minval ≤ nd.value) ∨
    (∃ (p : Nat) (nd : BpeNode),
      (bpeScanFrom m i l s).pos_it = some (i + p) ∧
      pairAt l p = some ((bpeScanFrom m i l s).ori_id1, (bpeScanFrom m i l s).ori_id2) ∧
      UMap.find m ((bpeScanFrom m i l s).ori_id1, (bpeScanFrom m i l s).ori_id2) = some nd ∧
      nd.id = (bpeScanFrom m i l s).aim_id ∧ nd.value = (bpeScanFrom m i l s).minval ∧
      (bpeScanFrom m i l s).minval < s.minval ∧
      ∀ (j : Nat) (pr : Int × Int) (nd1 : BpeNode),
        pairAt l j = some pr → UMap.find m pr = some nd1 →
          (bpeScanFrom m i l s).minval ≤ nd1.value ∧
          (j < p → (bpeScanFrom m i l s).minval < nd1.value)) := by
  intro l
  induction l with
  | nil =>
    intro i s
    left
    refine ⟨by simp [bpeScanFrom], ?_⟩
    intro j pr nd h; simp [pairAt_nil] at h
  | cons a l ih =>
    intro i s
    cases l with
    | nil =>
      left
      refine ⟨by simp [bpeScanFrom], ?_⟩
      intro j pr nd h; simp [pairAt_singleton] at h
    | cons b t =>
      rw [bpeScanFrom]
      cases hf : UMap.find m (a, b) with
      | none =>
        dsimp only
        rcases ih (i + 1) s with ⟨hr, hall⟩ | ⟨p, nd, hpos, hpair, hfind, hid, hval, hlt, hmin⟩
        · left
          refine ⟨hr, ?_⟩
          intro j pr nd hp hfd
          cases j with
          | zero =>
            rw [pairAt_zero] at hp
            cases hp
            rw [hf] at hfd; cases hfd
          | succ j => rw [pairAt_succ] at hp; exact hall j pr nd hp hfd
        · right
          refine ⟨p + 1, nd, ?_, ?_, hfind, hid, hval, hlt, ?_⟩
          · rw [hpos]; congr 1; omega
          · rw [pairAt_succ]; exact hpair
          · intro j pr nd1 hp hfd
            cases j with
            | zero =>
              rw [pairAt_zero] at hp
              cases hp
              rw [hf] at hfd; cases hfd
            | succ j =>
              rw [pairAt_succ] at hp
              have := hmin j pr nd1 hp hfd
              exact ⟨this.1, fun hj => this.2 (by omega)⟩
      | some node =>
        dsimp only
        by_cases hgt : s.minval > node.value
        · rw [if_pos hgt]
          have hs := ih (i + 1) ⟨some i, node.value, a, b, node.id⟩
          rcases hs with ⟨hr, hall⟩ | ⟨p, nd, hpos, hpair, hfind, hid, hval, hlt, hmin⟩
          · right
            rw [hr]
            refine ⟨0, node, rfl, pairAt_zero a b t, hf, rfl, rfl, hgt, ?_⟩
            intro j pr nd1 hp hfd
            cases j with
            | zero =>
              rw [pairAt_zero] at hp
              cases hp
              rw [hf] at hfd; cases hfd
              exact ⟨le_refl _, fun hj => absurd hj (by omega)⟩
            | succ j =>
              rw [pairAt_succ] at hp
              exact ⟨hall j pr nd1 hp hfd, fun hj => absurd hj (by omega)⟩
          · right
            dsimp only at hlt
            refine ⟨p + 1, nd, ?_, ?_, hfind, hid, hval, by omega, ?_⟩
            · rw [hpos]; congr 1; omega
            · rw [pairAt_succ]; exact hpair
            · intro j pr nd1 hp hfd
              cases j with
              | zero =>
                rw [pairAt_zero] at hp
                cases hp
                rw [hf] at hfd; cases hfd
                exact ⟨by omega, fun _ => hlt⟩
              | succ j =>
                rw [pairAt_succ] at hp
                have := hmin j pr nd1 hp hfd
                exact ⟨this.1, fun hj => this.2 (by omega)⟩
        · rw [if_neg hgt]
          rcases ih (i + 1) s with ⟨hr, hall⟩ | ⟨p, nd, hpos, hpair, hfind, hid, hval, hlt, hmin⟩
          · left
            refine ⟨hr, ?_⟩
            intro j pr nd hp hfd
            cases j with
            | zero =>
              rw [pairAt_zero] at hp
              cases hp
              rw [hf] at hfd; cases hfd
              omega
            | succ j => rw [pairAt_succ] at hp; exact hall j pr nd hp hfd
          · right
            refine ⟨p + 1, nd, ?_, ?_, hfind, hid, hval, hlt, ?_⟩
            · rw [hpos]; congr 1; omega
            · rw [pairAt_succ]; exact hpair
            · intro j pr nd1 hp hfd
              cases j with
              | zero =>
                rw [pairAt_zero] at hp
                cases hp
                rw [hf] at hfd; cases hfd
                exact ⟨by omega, fun _ => by omega⟩
              | succ j =>
                rw [pairAt_succ] at hp
                have := hmin j pr nd1 hp hfd
                exact ⟨this.1, fun hj => this.2 (by omega)⟩

theorem bpeScan_selected (m : BpeMap) (vals : List Int) (pos : Nat)
    (h : (bpeScan m vals).pos_it = some pos) :
    ∃ nd : BpeNode,
      pairAt vals pos = some ((bpeScan m vals).ori_id1, (bpeScan m vals).ori_id2) ∧
      UMap.find m ((bpeScan m vals).ori_id1, (bpeScan m vals).ori_id2) = some nd ∧
      nd.id = (bpeScan m vals).aim_id ∧ nd.value = (bpeScan m vals).minval ∧
      ∀ (j : Nat) (pr : Int × Int) (nd1 : BpeNode),
        pairAt vals j = some pr → UMap.find m pr = some nd1 →
          nd.value ≤ nd1.value ∧ (j < pos → nd.value < nd1.value) := by
  unfold bpeScan at h ⊢
  rcases bpeScanFrom_spec m vals 0 BpeScan.init with
    ⟨hr, _⟩ | ⟨p, nd, hpos, hpair, hfind, hid, hval, _, hmin⟩
  · rw [hr] at h; simp [BpeScan.init] at h
  · rw [hpos] at h
    have hp : p = pos := by simpa using h
    subst hp
    refine ⟨nd, hpair, hfind, hid, hval, ?_⟩
    intro j pr nd1 h1 h2
    rw [hval]
    exact hmin j pr nd1 h1 h2

theorem bpeScan_none (m : BpeMap) (vals : List Int) (h : (bpeScan m vals).pos_it = none) :
    ∀ (j : Nat) (pr : Int × Int) (nd : BpeNode),
      pairAt vals j = some pr → UMap.find m pr = some nd → INT_MAX ≤ nd.value := by
  unfold bpeScan at h
  rcases bpeScanFrom_spec m vals 0 BpeScan.init with ⟨_, hall⟩ | ⟨p, nd, hpos, _⟩
  · exact hall
  · rw [hpos] at h; cases h

theorem bpeScan_some (m : BpeMap) (vals : List Int) (hr : RanksBelowMax m)
    (j : Nat) (pr : Int × Int) (nd : BpeNode)
    (h1 : pairAt vals j = some pr) (h2 : UMap.find m pr = some nd) :
    ∃ pos, (bpeScan m vals).pos_it = some pos := by
  cases h : (bpeScan m vals).pos_it with
  | some pos => exact ⟨pos, rfl⟩
  | none =>
    have := bpeScan_none m vals h j pr nd h1 h2
    have := hr pr nd h2
    omega

theorem bpeSweep_length_le (a b c : Int) : ∀ (n : Nat) (l : List Int), l.length ≤ n →
    (bpeSweep a b c l).length ≤ l.length := by
  intro n
  induction n with
  | zero =>
    intro l h
    have : l = [] := List.length_eq_zero.mp (by omega)
    subst this
    simp [bpeSweep]
  | succ n ih =>
    intro l h
    match l with
    | [] => simp [bpeSweep]
    | [x] => simp [bpeSweep]
    | x :: y :: t =>
      simp only [List.length_cons] at h
      have h1 := ih (y :: t) (by simp only [List.length_cons]; omega)
      have h2 := ih t (by omega)
      unfold bpeSweep
      split
      · simp only [List.length_cons] at h1 ⊢; omega
      · split
        · simp only [List.length_cons] at h1 ⊢; omega
        · simp only [List.length_cons]; omega

theorem bpeStep_length_lt (m : BpeMap) (vals vals1 : List Int)
    (h : bpeStep m vals = some vals1) : vals1.length < vals.length := by
  unfold bpeStep at h
  split at h
  · cases hp : (bpeScan m vals).pos_it with
    | none => rw [hp] at h; cases h
    | some pos =>
      rw [hp] at h
      simp only [Option.some.injEq] at h
      obtain ⟨nd, hpair, _⟩ := bpeScan_selected m vals pos hp
      have hb := pairAt_bound vals pos _ hpair
      have hs := bpeSweep_length_le (bpeScan m vals).ori_id1 (bpeScan m vals).ori_id2
        (bpeScan m vals).aim_id _ (vals.drop (pos + 2)) (le_refl _)
      rw [← h]
      simp only [bpeMergeAt, List.length_append, List.length_take, List.length_cons,
        List.length_drop] at hs ⊢
      omega
  · cases h

theorem bpeLoop_of_none (m : BpeMap) (fuel : Nat) (vals : List Int)
    (h : bpeStep m vals = none) : bpeLoop m fuel vals = vals := by
  cases fuel with
  | zero => rfl
  | succ fuel => simp [bpeLoop, h]

theorem bpeLoop_fuel (m : BpeMap) (fuel1 : Nat) : ∀ (fuel2 : Nat) (vals : List Int),
    vals.length ≤ fuel1 → vals.length ≤ fuel2 → bpeLoop m fuel1 vals = bpeLoop m fuel2 vals := by
  induction fuel1 with
  | zero =>
    intro fuel2 vals h1 _
    have : vals = [] := List.length_eq_zero.mp (by omega)
    subst this
    rw [bpeLoop_of_none m 0 [] (by simp [bpeStep]), bpeLoop_of_none m fuel2 [] (by simp [bpeStep])]
  | succ fuel1 ih =>
    intro fuel2 vals h1 h2
    cases hs : bpeStep m vals with
    | none => rw [bpeLoop_of_none m _ vals hs, bpeLoop_of_none m _ vals hs]
    | some vals1 =>
      have hlt := bpeStep_length_lt m vals vals1 hs
      cases fuel2 with
      | zero => omega
      | succ fuel2 =>
        simp only [bpeLoop, hs]
        exact ih fuel2 vals1 (by omega) (by omega)

/-- The outer loop of `bpe` as a recursion: the fuel of `GPT2Tokenizer.bpe` is enough. -/
theorem bpe_unfold (m : BpeMap) (vals : List Int) :
    GPT2Tokenizer.bpe m vals =
      match bpeStep m vals with
      | none => vals
      | some vals1 => GPT2Tokenizer.bpe m vals1 := by
  unfold GPT2Tokenizer.bpe
  cases hs : bpeStep m vals with
  | none => exact bpeLoop_of_none m _ vals hs
  | some vals1 =>
    have hlt := bpeStep_length_lt m vals vals1 hs
    cases hv : vals.length with
    | zero => omega
    | succ n =>
      simp only [bpeLoop, hs]
      exact bpeLoop_fuel m n vals1.length vals1 (by omega) (le_refl _)

theorem UMap.find_mem {K V : Type} [DecidableEq K] (m : UMap K V) (k : K) (v : V)
    (h : UMap.find m k = some v) : (k, v) ∈ m := by
  induction m with
  | nil => simp [UMap.find] at h
  | cons e rest ih =>
    obtain ⟨k0, v0⟩ := e
    unfold UMap.find at h
    split at h
    · next hk =>
      simp only [Option.some.injEq] at h
      rw [hk, h]
      exact List.mem_cons_self _ _
    · exact List.mem_cons_of_mem _ (ih h)

theorem TryMatchWith_eq (rm : Str → Bool) (self : TokenWithRegularExp) :
    TokenWithRegularExp.TryMatchWith rm self =
      if rm self.m_text then
        ((0 :: self.m_text.drop 1).take self.m_text.length, { m_text := [] })
      else ([], self) := by
  simp [TokenWithRegularExp.TryMatchWith]

theorem TryMatchWith_matched (rm : Str → Bool) (self : TokenWithRegularExp)
    (hne : self.m_text ≠ []) (hm : rm self.m_text = true) :
    TokenWithRegularExp.TryMatchWith rm self = (0 :: self.m_text.drop 1, { m_text := [] }) := by
  rw [TryMatchWith_eq, if_pos hm]
  have hlen : (0 :: self.m_text.drop 1).length ≤ self.m_text.length := by
    have := List.length_pos.mpr hne
    simp only [List.length_cons, List.length_drop]
    omega
  rw [List.take_of_length_le hlen]

theorem GetNextTokenLoop_spec (rm : Str → Bool) (fuel : Nat) :
    ∀ self : TokenWithRegularExp, self.m_text.length < fuel →
      (TokenWithRegularExp.GetNextTokenLoop rm fuel self).2.m_text = [] ∧
      ((TokenWithRegularExp.GetNextTokenLoop rm fuel self).1 = (false, []) ∨
        ((TokenWithRegularExp.GetNextTokenLoop rm fuel self).1.1 = true ∧
          ∃ matched : Str, matched ≠ [] ∧ matched <:+ self.m_text ∧ rm matched = true ∧
            (TokenWithRegularExp.GetNextTokenLoop rm fuel self).1.2 = 0 :: matched.drop 1)) := by
  induction fuel with
  | zero => intro self h; omega
  | succ fuel ih =>
    intro self h
    unfold TokenWithRegularExp.GetNextTokenLoop
    by_cases hne : self.m_text ≠ []
    · rw [if_pos hne]
      by_cases hm : rm self.m_text = true
      · have hr := TryMatchWith_matched rm self hne hm
        simp only [hr, reduceCtorEq, if_false]
        exact ⟨trivial, Or.inr ⟨trivial, self.m_text, hne, List.suffix_refl _, hm, rfl⟩⟩
      · have hr : TokenWithRegularExp.TryMatchWith rm self = ([], self) := by
          simp [TokenWithRegularExp.TryMatchWith, hm]
        simp only [hr, if_true]
        have hlen : (self.m_text.drop 1).length < fuel := by
          have := List.length_pos.mpr hne
          simp only [List.length_drop]; omega
        have h1 := ih { m_text := self.m_text.drop 1 } hlen
        refine ⟨h1.1, ?_⟩
        rcases h1.2 with h2 | ⟨h2, matched, h3, h4, h5, h6⟩
        · left; exact h2
        · right
          exact ⟨h2, matched, h3, List.IsSuffix.trans h4 (List.drop_suffix 1 _), h5, h6⟩
    · rw [if_neg hne]
      have : self.m_text = [] := by simpa using hne
      exact ⟨this, Or.inl rfl⟩

theorem GetNextTokenWith_nil (rm : Str → Bool) (self : TokenWithRegularExp)
    (h : self.m_text = []) :
    TokenWithRegularExp.GetNextTokenWith rm self = ((false, []), self) := by
  simp [TokenWithRegularExp.GetNextTokenWith, TokenWithRegularExp.GetNextTokenLoop, h]

/-- C7: `GetNextToken` does not return the prefix that the pattern matches. The pattern is
matched against the whole remaining text (`std::regex_match`), so for any pattern a call
either returns (false, "") or finds a suffix of the text that matches as a whole, and in
both cases leaves no text: the call after it returns (false, ""). The fragment returned
is that suffix with its first byte overwritten by 0, as `TryMatch` reads the match after
it has reassigned `m_text`. After `Set("hello world")` the calls return (true, "\x00"),
for the suffix "d", and (false, ""), not (true, "hello"), (true, " world"),
(false, ""). -/
theorem GetNextToken_hello_world :
    (∀ (rm : Str → Bool) (self : TokenWithRegularExp),
      (TokenWithRegularExp.GetNextTokenWith rm self).2.m_text = [] ∧
      (TokenWithRegularExp.GetNextTokenWith rm
        (TokenWithRegularExp.GetNextTokenWith rm self).2).1 = (false, []) ∧
      ((TokenWithRegularExp.GetNextTokenWith rm self).1 = (false, []) ∨
        ((TokenWithRegularExp.GetNextTokenWith rm self).1.1 = true ∧
          ∃ matched : Str, matched ≠ [] ∧ matched <:+ self.m_text ∧ rm matched = true ∧
            (TokenWithRegularExp.GetNextTokenWith rm self).1.2 = 0 :: matched.drop 1))) ∧
    (∀ rm : Str → Bool,
      (TokenWithRegularExp.GetNextTokenWith rm
        (TokenWithRegularExp.Set (ascii "hello world"))).1 ≠ (true, ascii "hello")) ∧
    TokenWithRegularExp.GetNextToken (TokenWithRegularExp.Set (ascii "hello world")) =
      ((true, [0]), { m_text := [] }) ∧
    (TokenWithRegularExp.GetNextToken
      (TokenWithRegularExp.GetNextToken (TokenWithRegularExp.Set (ascii "hello world"))).2).1 =
      (false, []) := by
  have hgen : ∀ (rm : Str → Bool) (self : TokenWithRegularExp),
      (TokenWithRegularExp.GetNextTokenWith rm self).2.m_text = [] ∧
      ((TokenWithRegularExp.GetNextTokenWith rm self).1 = (false, []) ∨
        ((TokenWithRegularExp.GetNextTokenWith rm self).1.1 = true ∧
          ∃ matched : Str, matched ≠ [] ∧ matched <:+ self.m_text ∧ rm matched = true ∧
            (TokenWithRegularExp.GetNextTokenWith rm self).1.2 = 0 :: matched.drop 1)) := by
    intro rm self
    exact GetNextTokenLoop_spec rm (self.m_text.length + 1) self (by omega)
  refine ⟨?_, ?_, by decide, by decide⟩
  · intro rm self
    refine ⟨(hgen rm self).1, ?_, (hgen rm self).2⟩
    rw [GetNextTokenWith_nil rm _ (hgen rm self).1]
  · intro rm h
    rcases (hgen rm (TokenWithRegularExp.Set (ascii "hello world"))).2 with
      h1 | ⟨_, matched, _, _, _, h2⟩
    · rw [h] at h1; cases h1
    · rw [h] at h2
      have e : ascii "hello" = [104, 101, 108, 108, 111] := by decide
      rw [e] at h2
      simp at h2

/-! ## The byte table -/

set_option maxRecDepth 100000 in
theorem byteAssignments_eq : byteAssignments = byteAssignmentsClosed := by
  decide

set_option maxRecDepth 100000 in
theorem byteAssignmentsClosed_once :
    ∀ b < 256, (byteAssignmentsClosed.map Prod.fst).count b = 1 := by
  decide

set_option maxRecDepth 100000 in
theorem byteAssignmentsClosed_find : ∀ b < 256,
    byteAssignmentsClosed.reverse.find? (fun a => a.1 = b) = some (b, byteCodePointClosed b) := by
  decide

set_option maxRecDepth 100000 in
theorem byteCodePointClosed_rank : ∀ b < 256, isOwnByte b = false →
    byteCodePointClosed b = 256 + ((List.range b).filter (fun c => !isOwnByte c)).length := by
  decide

theorem byteAssignmentsClosed_length : byteAssignmentsClosed.length = 256 := by
  simp [byteAssignmentsClosed]

theorem byteCodePoint_eq (b : Nat) (hb : b < 256) : byteCodePoint b = byteCodePointClosed b := by
  unfold byteCodePoint
  rw [byteAssignments_eq, byteAssignmentsClosed_find b hb]

theorem byteCodePointClosed_injective (a : Nat) (ha : a < 256) (b : Nat) (hb : b < 256)
    (h : byteCodePointClosed a = byteCodePointClosed b) : a = b := by
  unfold byteCodePointClosed isOwnByte at h
  simp only [Bool.or_eq_true, Bool.and_eq_true, decide_eq_true_eq] at h
  split_ifs at h <;> omega

theorem byteCodePointClosed_lt (b : Nat) (hb : b < 256) : byteCodePointClosed b < 2048 := by
  unfold byteCodePointClosed
  split_ifs <;> omega

theorem codePointId_to_bytes (c : Nat) (hc : c < 2048) : codePointId (to_bytes c) = (c : Nat) := by
  unfold to_bytes
  split_ifs with h1
  · simp [codePointId]
  · simp only [codePointId]
    exact_mod_cast (by omega : (192 + c / 64 - 192) * 64 + (128 + c % 64 - 128) = c)

theorem to_bytes_injective (c : Nat) (hc : c < 2048) (d : Nat) (hd : d < 2048)
    (h : to_bytes c = to_bytes d) : c = d := by
  have h1 := codePointId_to_bytes c hc
  rw [h, codePointId_to_bytes d hd] at h1
  exact_mod_cast h1.symm

theorem foldl_set_length (f : Nat → Int) : ∀ (as : List (Nat × Nat)) (tbl : List Int),
    (as.foldl (fun tbl a => tbl.set a.1 (f a.2)) tbl).length = tbl.length := by
  intro as
  induction as with
  | nil => intro tbl; rfl
  | cons a as ih => intro tbl; rw [List.foldl_cons, ih]; simp

theorem foldl_set_getD (f : Nat → Int) (b : Nat) : ∀ (as : List (Nat × Nat)) (tbl : List Int),
    b < tbl.length →
    (as.foldl (fun tbl a => tbl.set a.1 (f a.2)) tbl).getD b 0 =
      match as.reverse.find? (fun a => a.1 = b) with
      | some a => f a.2
      | none => tbl.getD b 0 := by
  intro as
  induction as with
  | nil => intro tbl _; simp
  | cons a as ih =>
    intro tbl hb
    rw [List.foldl_cons, ih (tbl.set a.1 (f a.2)) (by simpa using hb), List.reverse_cons,
      List.find?_append]
    cases hfind : as.reverse.find? (fun a => decide (a.1 = b)) with
    | some x => simp
    | none =>
      by_cases hab : a.1 = b
      · subst hab
        simp [List.getD_eq_getElem?_getD, hb]
      · simp [List.getD_eq_getElem?_getD, hab, List.getElem?_set]

theorem loadByteEncoder_getD (conv : Str → Int) (init : List Int) (hinit : init.length = 256)
    (b : Nat) (hb : b < 256) :
    (loadByteEncoder conv init).getD b 0 = conv (to_bytes (byteCodePoint b)) := by
  unfold loadByteEncoder
  rw [foldl_set_getD (fun c => conv (to_bytes c)) b byteAssignments init (by omega),
    byteCodePoint_eq b hb, byteAssignments_eq, byteAssignmentsClosed_find b hb]

/-- C8: the byte table built by `Load` is total and free of collisions. Each byte value
0..255 is assigned exactly once; a byte of [33,126], [161,172] or [174,255] gets the
character with its own code point, any other byte the code point 256 + the number of such
other bytes below it; the map from bytes to code points, and to their UTF-8 characters, is
injective; `byte_encoder_[b]` is the id that `ConvertTokenToId` gives the character of
byte `b`, so if the 256 characters have pairwise distinct ids, the 256 entries of
`byte_encoder_` are pairwise distinct. -/
theorem byte_encoder_injective :
    (byteAssignments.length = 256 ∧ ∀ b < 256, (byteAssignments.map Prod.fst).count b = 1) ∧
    (∀ b < 256, isOwnByte b = true → byteCodePoint b = b) ∧
    (∀ b < 256, isOwnByte b = false →
      byteCodePoint b = 256 + ((List.range b).filter (fun c => !isOwnByte c)).length) ∧
    (∀ a < 256, ∀ b < 256, byteCodePoint a = byteCodePoint b → a = b) ∧
    (∀ a < 256, ∀ b < 256, to_bytes (byteCodePoint a) = to_bytes (byteCodePoint b) → a = b) ∧
    (∀ (ConvertTokenToId : Str → Int) (byte_encoder_ : List Int), byte_encoder_.length = 256 →
      (loadByteEncoder ConvertTokenToId byte_encoder_).length = 256 ∧
      (∀ b < 256, (loadByteEncoder ConvertTokenToId byte_encoder_).getD b 0 =
        ConvertTokenToId (to_bytes (byteCodePoint b))) ∧
      ((∀ a < 256, ∀ b < 256, a ≠ b →
          ConvertTokenToId (to_bytes (byteCodePoint a)) ≠
            ConvertTokenToId (to_bytes (byteCodePoint b))) →
        ∀ a < 256, ∀ b < 256, a ≠ b →
          (loadByteEncoder ConvertTokenToId byte_encoder_).getD a 0 ≠
            (loadByteEncoder ConvertTokenToId byte_encoder_).getD b 0)) := by
  have hinj : ∀ a < 256, ∀ b < 256, byteCodePoint a = byteCodePoint b → a = b := by
    intro a ha b hb h
    rw [byteCodePoint_eq a ha, byteCodePoint_eq b hb] at h
    exact byteCodePointClosed_injective a ha b hb h
  refine ⟨⟨?_, ?_⟩, ?_, ?_, hinj, ?_, ?_⟩
  · rw [byteAssignments_eq]; exact byteAssignmentsClosed_length
  · rw [byteAssignments_eq]; exact byteAssignmentsClosed_once
  · intro b hb hown
    rw [byteCodePoint_eq b hb, byteCodePointClosed, if_pos hown]
  · intro b hb hown
    rw [byteCodePoint_eq b hb]
    exact byteCodePointClosed_rank b hb hown
  · intro a ha b hb h
    apply hinj a ha b hb
    rw [byteCodePoint_eq a ha, byteCodePoint_eq b hb] at h ⊢
    exact to_bytes_injective _ (byteCodePointClosed_lt a ha) _ (byteCodePointClosed_lt b hb) h
  · intro conv init hinit
    refine ⟨?_, ?_, ?_⟩
    · exact (foldl_set_length (fun c => conv (to_bytes c)) byteAssignments init).trans hinit
    · intro b hb
      exact loadByteEncoder_getD conv init hinit b hb
    · intro hdist a ha b hb hab
      rw [loadByteEncoder_getD conv init hinit a ha, loadByteEncoder_getD conv init hinit b hb]
      exact hdist a ha b hb hab

/-- C8, at the `ConvertTokenToId` that gives every character its code point as its id and
the table of a fresh object: the entries for the bytes 32 and 33 are 288 and 33. -/
theorem byte_encoder_injective_witness :
    (loadByteEncoder codePointId GPT2Tokenizer.fresh.byte_encoder_).length = 256 ∧
    (∀ b < 256, (loadByteEncoder codePointId GPT2Tokenizer.fresh.byte_encoder_).getD b 0 =
      codePointId (to_bytes (byteCodePoint b))) ∧
    (∀ a < 256, ∀ b < 256, a ≠ b →
      (loadByteEncoder codePointId GPT2Tokenizer.fresh.byte_encoder_).getD a 0 ≠
        (loadByteEncoder codePointId GPT2Tokenizer.fresh.byte_encoder_).getD b 0) ∧
    (loadByteEncoder codePointId GPT2Tokenizer.fresh.byte_encoder_).getD 32 0 = 288 ∧
    (loadByteEncoder codePointId GPT2Tokenizer.fresh.byte_encoder_).getD 33 0 = 33 :=
  have h := byte_encoder_injective.2.2.2.2.2 codePointId GPT2Tokenizer.fresh.byte_encoder_
    (by show (List.replicate 256 (0 : Int)).length = 256; simp only [List.length_replicate])
  have hd : ∀ a < 256, ∀ b < 256, a ≠ b →
      codePointId (to_bytes (byteCodePoint a)) ≠ codePointId (to_bytes (byteCodePoint b)) := by
    intro a ha b hb hab heq
    rw [byteCodePoint_eq a ha, byteCodePoint_eq b hb,
      codePointId_to_bytes _ (byteCodePointClosed_lt a ha),
      codePointId_to_bytes _ (byteCodePointClosed_lt b hb)] at heq
    exact hab (byteCodePointClosed_injective a ha b hb (by exact_mod_cast heq))
  ⟨h.1, h.2.1, h.2.2 hd,
    by rw [h.2.1 32 (by decide), byteCodePoint_eq 32 (by decide)]; decide,
    by rw [h.2.1 33 (by decide), byteCodePoint_eq 33 (by decide)]; decide⟩

/-! ## Registration of special tokens -/

theorem UMap.assign_absent {K V : Type} [DecidableEq K] (m : UMap K V) (k : K) (v : V)
    (h : UMap.find m k = none) : UMap.assign m k v = m ++ [(k, v)] := by
  induction m with
  | nil => rfl
  | cons e rest ih =>
    obtain ⟨k0, v0⟩ := e
    unfold UMap.find at h
    split at h
    · cases h
    · next hk =>
      unfold UMap.assign
      rw [if_neg hk, ih h]
      rfl

theorem UMap.find_append_singleton {K V : Type} [DecidableEq K] (m : UMap K V) (k : K) (v : V)
    (k1 : K) :
    UMap.find (m ++ [(k, v)]) k1 =
      match UMap.find m k1 with
      | some v1 => some v1
      | none => if k = k1 then some v else none := by
  induction m with
  | nil => simp [UMap.find]
  | cons e rest ih =>
    obtain ⟨k0, v0⟩ := e
    simp only [List.cons_append, UMap.find]
    split
    · rfl
    · exact ih

theorem Add_of_found (self : GPT2Tokenizer) (s : Str) (i j : Int)
    (h : UMap.find self.token_map_ s = some j) :
    GPT2Tokenizer.Add s i self =
      if j ≠ i then (.error "Duplicate special tokens.", self) else (.ok (), self) := by
  simp only [GPT2Tokenizer.Add, h]

theorem Add_of_absent (self : GPT2Tokenizer) (s : Str) (i : Int) (hs : s ≠ [])
    (h : UMap.find self.token_map_ s = none) :
    GPT2Tokenizer.Add s i self =
      (.ok (), { self with
        token_map_ := self.token_map_ ++ [(s, i)],
        token_list_ := self.token_list_ ++ [{ str := s, id := i, str_nonempty := hs }] }) := by
  simp only [GPT2Tokenizer.Add, h, SpecialTokenInfo.ctor, dif_neg hs,
    UMap.assign_absent self.token_map_ s i h]

theorem Add_of_empty (self : GPT2Tokenizer) (i : Int)
    (h : UMap.find self.token_map_ [] = none) :
    GPT2Tokenizer.Add [] i self =
      (.error "Empty special token.",
        { self with token_map_ := UMap.assign self.token_map_ [] i }) := by
  simp only [GPT2Tokenizer.Add, h, SpecialTokenInfo.ctor, dif_pos]

/-- In a state built by successful `Add` calls the map holds the pairs of the list, in the
same order. -/
theorem AddReachable_map (self : GPT2Tokenizer) (h : AddReachable self) :
    self.token_map_ = self.token_list_.map SpecialTokenInfo.pair := by
  induction h with
  | fresh => rfl
  | add self s i _ hok ih =>
    cases hf : UMap.find self.token_map_ s with
    | some j =>
      rw [Add_of_found self s i j hf] at hok ⊢
      split
      · next hne => rw [if_pos hne] at hok; cases hok
      · exact ih
    | none =>
      by_cases hs : s = []
      · subst hs
        rw [Add_of_empty self i hf] at hok
        cases hok
      · rw [Add_of_absent self s i hs hf]
        simp [ih, SpecialTokenInfo.pair]

theorem UMap.find_none_iff {K V : Type} [DecidableEq K] (m : UMap K V) (k : K) :
    UMap.find m k = none ↔ k ∉ m.map Prod.fst := by
  induction m with
  | nil => simp [UMap.find]
  | cons e rest ih =>
    obtain ⟨k0, v0⟩ := e
    unfold UMap.find
    by_cases hk : k0 = k
    · simp [hk]
    · simp [hk, ih, Ne.symm hk]

theorem UMap.find_of_mem {K V : Type} [DecidableEq K] (m : UMap K V) (k : K) (v : V)
    (hnd : (m.map Prod.fst).Nodup) (h : (k, v) ∈ m) : UMap.find m k = some v := by
  induction m with
  | nil => simp at h
  | cons e rest ih =>
    obtain ⟨k0, v0⟩ := e
    simp only [List.map_cons, List.nodup_cons] at hnd
    unfold UMap.find
    rcases List.mem_cons.mp h with h1 | h1
    · cases h1
      simp
    · have hne : k0 ≠ k := by
        intro heq
        apply hnd.1
        rw [heq]
        exact List.mem_map.mpr ⟨(k, v), h1, rfl⟩
      rw [if_neg hne]
      exact ih hnd.2 h1

/-- In a state built by successful `Add` calls no literal is registered twice. -/
theorem AddReachable_nodup (self : GPT2Tokenizer) (h : AddReachable self) :
    (self.token_map_.map Prod.fst).Nodup := by
  induction h with
  | fresh => exact List.nodup_nil
  | add self s i _ hok ih =>
    cases hf : UMap.find self.token_map_ s with
    | some j =>
      rw [Add_of_found self s i j hf] at hok ⊢
      split
      · next hne => rw [if_pos hne] at hok; cases hok
      · exact ih
    | none =>
      by_cases hs : s = []
      · subst hs
        rw [Add_of_empty self i hf] at hok
        cases hok
      · rw [Add_of_absent self s i hs hf]
        simp only [List.map_append, List.map_cons, List.map_nil]
        rw [List.nodup_append]
        refine ⟨ih, by simp, ?_⟩
        intro a ha hb
        simp only [List.mem_singleton] at hb
        subst hb
        exact (UMap.find_none_iff _ _).mp hf ha

theorem AddReachable_no_empty (self : GPT2Tokenizer) (h : AddReachable self) :
    UMap.find self.token_map_ [] = none := by
  cases hf : UMap.find self.token_map_ [] with
  | none => rfl
  | some j =>
    have hmem := UMap.find_mem _ _ _ hf
    rw [AddReachable_map self h] at hmem
    obtain ⟨st, _, hst⟩ := List.mem_map.mp hmem
    have : st.str = [] := congrArg Prod.fst hst
    exact absurd this st.str_nonempty

/-- C9: in a state built by successful `Add` calls, `Add(s, i)` throws if `s` is empty;
throws if `s` is registered with an id other than `i`; changes nothing if `s` is
registered with the id `i`; otherwise it succeeds, appends (s, i) at the end of the list
and of the map, and leaves every earlier entry, and the other members, as they are. -/
theorem Add_spec (self : GPT2Tokenizer) (h : AddReachable self) (s : Str) (i : Int) :
    (s = [] → (GPT2Tokenizer.Add s i self).1 = .error "Empty special token.") ∧
    (∀ j : Int, UMap.find self.token_map_ s = some j → j ≠ i →
      GPT2Tokenizer.Add s i self = (.error "Duplicate special tokens.", self)) ∧
    (UMap.find self.token_map_ s = some i → GPT2Tokenizer.Add s i self = (.ok (), self)) ∧
    (s ≠ [] → UMap.find self.token_map_ s = none →
      (GPT2Tokenizer.Add s i self).1 = .ok () ∧
      (∃ st : SpecialTokenInfo, st.str = s ∧ st.id = i ∧
        (GPT2Tokenizer.Add s i self).2 =
          { self with token_list_ := self.token_list_ ++ [st],
                      token_map_ := self.token_map_ ++ [(s, i)] }) ∧
      UMap.find (GPT2Tokenizer.Add s i self).2.token_map_ s = some i ∧
      ∀ s1 : Str, s1 ≠ s →
        UMap.find (GPT2Tokenizer.Add s i self).2.token_map_ s1 =
          UMap.find self.token_map_ s1) ∧
    (∀ j : Int, UMap.find self.token_map_ s = some j ↔
      (s, j) ∈ self.token_list_.map SpecialTokenInfo.pair) := by
  refine ⟨?_, ?_, ?_, ?_, ?_⟩
  · intro hs
    subst hs
    rw [Add_of_empty self i (AddReachable_no_empty self h)]
  · intro j hf hne
    rw [Add_of_found self s i j hf, if_pos hne]
  · intro hf
    rw [Add_of_found self s i i hf, if_neg (by simp)]
  · intro hs hf
    rw [Add_of_absent self s i hs hf]
    refine ⟨rfl, ⟨_, rfl, rfl, rfl⟩, ?_, ?_⟩
    · simp [UMap.find_append_singleton, hf]
    · intro s1 hne
      simp only [UMap.find_append_singleton]
      cases UMap.find self.token_map_ s1 with
      | some v => rfl
      | none => simp [Ne.symm hne]
  · intro j
    rw [← AddReachable_map self h]
    constructor
    · exact UMap.find_mem _ _ _
    · exact UMap.find_of_mem _ _ _ (AddReachable_nodup self h)

/-- C9, at the state after `Add("<a>", 7)` on a fresh object: `Add("<a>", 8)` throws and
changes nothing, `Add("<b>", 8)` appends. -/
theorem Add_spec_witness :
    AddReachable (GPT2Tokenizer.Add (ascii "<a>") 7 GPT2Tokenizer.fresh).2 ∧
    GPT2Tokenizer.Add (ascii "<a>") 8 (GPT2Tokenizer.Add (ascii "<a>") 7 GPT2Tokenizer.fresh).2 =
      (.error "Duplicate special tokens.",
        (GPT2Tokenizer.Add (ascii "<a>") 7 GPT2Tokenizer.fresh).2) ∧
    (GPT2Tokenizer.Add (ascii "<b>") 8
      (GPT2Tokenizer.Add (ascii "<a>") 7 GPT2Tokenizer.fresh).2).2.token_map_ =
      [(ascii "<a>", 7), (ascii "<b>", 8)] :=
  have hr : AddReachable (GPT2Tokenizer.Add (ascii "<a>") 7 GPT2Tokenizer.fresh).2 :=
    AddReachable.add GPT2Tokenizer.fresh (ascii "<a>") 7 AddReachable.fresh rfl
  ⟨hr,
   (Add_spec _ hr (ascii "<a>") 8).2.1 7 (by decide) (by decide),
   by
     obtain ⟨st, _, _, h⟩ := ((Add_spec _ hr (ascii "<b>") 8).2.2.2.1 (by decide) (by decide)).2.1
     rw [h]
     rfl⟩

/-! ## The unknown token -/

theorem UMap.find_assign {K V : Type} [DecidableEq K] (m : UMap K V) (k : K) (v : V) (k1 : K) :
    UMap.find (UMap.assign m k v) k1 = if k = k1 then some v else UMap.find m k1 := by
  induction m with
  | nil => simp [UMap.assign, UMap.find]
  | cons e rest ih =>
    obtain ⟨k0, v0⟩ := e
    unfold UMap.assign
    by_cases hk : k0 = k
    · subst hk
      by_cases h1 : k0 = k1 <;> simp [UMap.find, h1]
    · rw [if_neg hk]
      by_cases h0 : k0 = k1
      · subst h0
        simp [UMap.find, Ne.symm hk]
      · simp [UMap.find, h0, ih]

theorem Add_vocab_unk (s : Str) (i : Int) (self : GPT2Tokenizer) :
    (GPT2Tokenizer.Add s i self).2.vocab_map_ = self.vocab_map_ ∧
    (GPT2Tokenizer.Add s i self).2.unk_id_ = self.unk_id_ := by
  unfold GPT2Tokenizer.Add
  cases UMap.find self.token_map_ s with
  | some j =>
    dsimp only
    split <;> exact ⟨rfl, rfl⟩
  | none =>
    dsimp only
    cases SpecialTokenInfo.ctor s i <;> exact ⟨rfl, rfl⟩

theorem Add_result_vocab_unk {s : Str} {i : Int} {self self2 : GPT2Tokenizer}
    {r : Except String Unit} (h : GPT2Tokenizer.Add s i self = (r, self2)) :
    self2.vocab_map_ = self.vocab_map_ ∧ self2.unk_id_ = self.unk_id_ := by
  have hp := Add_vocab_unk s i self
  rw [h] at hp
  exact hp

theorem loadSpecialTokens_vocab_unk : ∀ (words : List Str) (self self1 : GPT2Tokenizer),
    loadSpecialTokens words self = .ok self1 →
    self1.unk_id_ = self.unk_id_ ∧
    ∀ (k : Str) (v : Int), UMap.find self.vocab_map_ k = some v →
      UMap.find self1.vocab_map_ k = some v := by
  intro words
  induction words with
  | nil =>
    intro self self1 h
    simp only [loadSpecialTokens, Except.ok.injEq] at h
    subst h
    exact ⟨rfl, fun _ _ hk => hk⟩
  | cons w words ih =>
    intro self self1 h
    unfold loadSpecialTokens at h
    split at h
    · exact ih self self1 h
    · dsimp only at h
      split at h
      · cases h
      · next u self2 hadd =>
        have hrec := ih self2 self1 h
        cases hf : UMap.find self.vocab_map_ (stripCR w) with
        | some second =>
          rw [hf] at hadd
          dsimp only at hadd
          have hp := Add_result_vocab_unk hadd
          refine ⟨by rw [hrec.1, hp.2], ?_⟩
          intro k v hk
          apply hrec.2
          rw [hp.1]
          exact hk
        | none =>
          rw [hf] at hadd
          dsimp only at hadd
          have hp := Add_result_vocab_unk hadd
          dsimp only at hp
          refine ⟨by rw [hrec.1, hp.2], ?_⟩
          intro k v hk
          apply hrec.2
          rw [hp.1, UMap.find_assign]
          have hne : stripCR w ≠ k := by
            intro heq
            rw [heq, hk] at hf
            cases hf
          rw [if_neg hne]
          exact hk

theorem Load_vocab_unk (conv : Str → Int) (members : List (Str × Int)) (merges_lines : List Str)
    (unk_token special_tokens : Str) (self self1 : GPT2Tokenizer)
    (h : GPT2Tokenizer.Load conv members merges_lines unk_token special_tokens self = .ok self1) :
    self1.unk_id_ = (loadVocab members unk_token self).unk_id_ ∧
    ∀ (k : Str) (v : Int), UMap.find (loadVocab members unk_token self).vocab_map_ k = some v →
      UMap.find self1.vocab_map_ k = some v := by
  unfold GPT2Tokenizer.Load at h
  dsimp only at h
  split at h
  · cases h
  · next merged _ =>
    split at h
    · cases h
    · next self2 hl =>
      simp only [Except.ok.injEq] at h
      subst h
      split at hl
      · have := loadSpecialTokens_vocab_unk _ _ _ hl
        exact ⟨this.1, this.2⟩
      · simp only [Except.ok.injEq] at hl
        subst hl
        exact ⟨rfl, fun _ _ hk => hk⟩

/-- C10: when the unknown token is in the source vocabulary, `Load` sets `unk_id_` to its
id. When it is absent from a source vocabulary of N entries, `Load` adds it to the
vocabulary with the id N, and leaves `unk_id_` as it was before the call: for the
vocabulary consisting of "a" with id 0 and the unknown token "<unk>", a fresh object ends
with "<unk>" at id 1 in the vocabulary and `unk_id_` never assigned. -/
theorem Load_unk_id_unassigned :
    (∀ (conv : Str → Int) (members : List (Str × Int)) (merges_lines : List Str)
        (unk_token special_tokens : Str) (self self1 : GPT2Tokenizer),
      GPT2Tokenizer.Load conv members merges_lines unk_token special_tokens self = .ok self1 →
      (∀ id : Int,
        UMap.find (members.foldl (fun m ite => UMap.insert m ite.1 ite.2) []) unk_token = some id →
        self1.unk_id_ = some id ∧ UMap.find self1.vocab_map_ unk_token = some id) ∧
      (UMap.find (members.foldl (fun m ite => UMap.insert m ite.1 ite.2) []) unk_token = none →
        self1.unk_id_ = self.unk_id_ ∧
        UMap.find self1.vocab_map_ unk_token =
          some ((UMap.size (members.foldl (fun m ite => UMap.insert m ite.1 ite.2)
            ([] : UMap Str Int)) : Nat) : Int))) ∧
    ((GPT2Tokenizer.Load codePointId [(ascii "a", 0)] [] (ascii "<unk>") []
        GPT2Tokenizer.fresh).toOption.map (fun self1 =>
          (self1.unk_id_, UMap.find self1.vocab_map_ (ascii "<unk>"))) =
      some (none, some 1)) := by
  constructor
  · intro conv members merges_lines unk_token special_tokens self self1 h
    have hl := Load_vocab_unk conv members merges_lines unk_token special_tokens self self1 h
    constructor
    · intro id hf
      have e1 : (loadVocab members unk_token self).unk_id_ = some id := by
        simp only [loadVocab, hf]
      have e2 : UMap.find (loadVocab members unk_token self).vocab_map_ unk_token = some id := by
        simp only [loadVocab, hf]
      exact ⟨by rw [hl.1, e1], hl.2 _ _ e2⟩
    · intro hf
      have e1 : (loadVocab members unk_token self).unk_id_ = self.unk_id_ := by
        simp only [loadVocab, hf]
      have e2 : UMap.find (loadVocab members unk_token self).vocab_map_ unk_token =
          some ((UMap.size (members.foldl (fun m ite => UMap.insert m ite.1 ite.2)
            ([] : UMap Str Int)) : Nat) : Int) := by
        simp only [loadVocab, hf, UMap.find_assign, if_true]
      exact ⟨by rw [hl.1, e1], hl.2 _ _ e2⟩
  · decide

/-! ## The fuel of the loops of the pre-tokenizer is enough -/

/-- The loop of `GetNextToken` as a recursion on the object. -/
theorem GetNextTokenWith_unfold (rm : Str → Bool) (self : TokenWithRegularExp) :
    TokenWithRegularExp.GetNextTokenWith rm self =
      if self.m_text ≠ [] then
        if (TokenWithRegularExp.TryMatchWith rm self).1 = [] then
          TokenWithRegularExp.GetNextTokenWith rm
            { m_text := (TokenWithRegularExp.TryMatchWith rm self).2.m_text.drop 1 }
        else ((true, (TokenWithRegularExp.TryMatchWith rm self).1),
          (TokenWithRegularExp.TryMatchWith rm self).2)
      else ((false, []), self) := by
  by_cases hne : self.m_text ≠ []
  · rw [if_pos hne]
    unfold TokenWithRegularExp.GetNextTokenWith
    rw [TokenWithRegularExp.GetNextTokenLoop, if_pos hne]
    dsimp only
    split
    · next hr =>
      have hm : rm self.m_text = false := by
        by_cases hm : rm self.m_text = true
        · rw [TryMatchWith_matched rm self hne hm] at hr
          cases hr
        · simpa using hm
      have h2 : (TokenWithRegularExp.TryMatchWith rm self).2 = self := by
        rw [TryMatchWith_eq]; simp [hm]
      rw [h2]
      have hlen : (self.m_text.drop 1).length + 1 = self.m_text.length := by
        have := List.length_pos.mpr hne
        simp only [List.length_drop]; omega
      rw [hlen]
    · rfl
  · rw [if_neg hne]
    exact GetNextTokenWith_nil rm self (by simpa using hne)

theorem fragmentLoop_fuel (self : GPT2Tokenizer) (conv : Int → Str) (k : Int) (fuel1 : Nat) :
    ∀ (fuel2 : Nat) (reg : TokenWithRegularExp) (res : List Str),
      reg.m_text.length < fuel1 → reg.m_text.length < fuel2 →
      fragmentLoop self conv k fuel1 reg res = fragmentLoop self conv k fuel2 reg res := by
  induction fuel1 with
  | zero => intro fuel2 reg res h1 _; omega
  | succ fuel1 ih =>
    intro fuel2 reg res h1 h2
    cases fuel2 with
    | zero => omega
    | succ fuel2 =>
      unfold fragmentLoop
      split
      · dsimp only
        split
        · rfl
        · next hb =>
          have hspec := GetNextTokenLoop_spec expression_match (reg.m_text.length + 1) reg
            (by omega)
          have hnext : (TokenWithRegularExp.GetNextToken reg).2.m_text = [] := hspec.1
          have hne : reg.m_text ≠ [] := by
            intro h0
            have := GetNextTokenWith_nil expression_match reg h0
            unfold TokenWithRegularExp.GetNextToken at hb
            rw [this] at hb
            simp at hb
          have hpos := List.length_pos.mpr hne
          exact ih fuel2 _ _ (by rw [hnext]; simp only [List.length_nil]; omega)
            (by rw [hnext]; simp only [List.length_nil]; omega)
      · rfl

/-- The loop of lines 104-126 as a recursion: the fuel given by `segmentLoop` is enough. -/
theorem fragmentLoop_unfold (self : GPT2Tokenizer) (conv : Int → Str) (k : Int)
    (reg : TokenWithRegularExp) (res : List Str) :
    fragmentLoop self conv k (reg.m_text.length + 1) reg res =
      if res.length < capOf k then
        if !(TokenWithRegularExp.GetNextToken reg).1.1 then res
        else
          fragmentLoop self conv k ((TokenWithRegularExp.GetNextToken reg).2.m_text.length + 1)
            (TokenWithRegularExp.GetNextToken reg).2
            (emitIds conv k
              (GPT2Tokenizer.bpe self.bpe_map_
                ((TokenWithRegularExp.GetNextToken reg).1.2.map
                  (fun cp => self.byte_encoder_.getD (cp % 256) 0)))
              res)
      else res := by
  rw [fragmentLoop]
  split
  · dsimp only
    split
    · rfl
    · next hb =>
      have hspec := GetNextTokenLoop_spec expression_match (reg.m_text.length + 1) reg
        (by omega)
      have hnext : (TokenWithRegularExp.GetNextToken reg).2.m_text = [] := hspec.1
      have hne : reg.m_text ≠ [] := by
        intro h0
        have := GetNextTokenWith_nil expression_match reg h0
        unfold TokenWithRegularExp.GetNextToken at hb
        rw [this] at hb
        simp at hb
      have hpos := List.length_pos.mpr hne
      exact fragmentLoop_fuel self conv k _ _ _ _ (by rw [hnext]; simp only [List.length_nil]; omega)
        (by omega)
  · rfl

/-! ## The test at the top of `Tokenize` -/

/-- C13: the test of line 85 is made on the accumulator, which is still empty, so it holds
on every call: for every state, text and cap, `Tokenize` returns the empty sequence, also
where the loops behind the test would produce a token (for the text "d" they give the
one token "\x00", the fragment that `GetNextToken` returns for it). -/
theorem Tokenize_always_empty (self : GPT2Tokenizer) (ConvertIdToToken : Int → Str)
    (input : Str) (max_length : Int) :
    ([] : List Str).all isblank = true ∧
    GPT2Tokenizer.Tokenize self ConvertIdToToken input max_length = [] ∧
    GPT2Tokenizer.TokenizeFrom plainTokenizer plainIdToToken (ascii "d") 5 [] = [[0]] ∧
    GPT2Tokenizer.Tokenize plainTokenizer plainIdToToken (ascii "d") 5 = [] := by
  refine ⟨rfl, ?_, by decide, by decide⟩
  simp [GPT2Tokenizer.Tokenize]

/-! ## Nothing is lost by the special-token splitter -/

/-- C16: for every input and every list of special tokens (their literals are not empty),
the texts of the segments of `SplitBySpeicalTokens`, joined in order, are the input. For
the empty input the result is the single segment ("", -1) when no special token is
registered and the empty list otherwise. -/
theorem SplitBySpeicalTokens_join (token_list_ : List SpecialTokenInfo) (input : Str)
    (st : SpecialTokenInfo) :
    ((GPT2Tokenizer.SplitBySpeicalTokens token_list_ input).map Prod.fst).flatten = input ∧
    GPT2Tokenizer.SplitBySpeicalTokens [] [] = [([], -1)] ∧
    GPT2Tokenizer.SplitBySpeicalTokens (st :: token_list_) [] = [] := by
  refine ⟨?_, rfl, ?_⟩
  · unfold GPT2Tokenizer.SplitBySpeicalTokens
    rw [splitFold_join]
    simp
  · unfold GPT2Tokenizer.SplitBySpeicalTokens
    rw [List.foldl_cons]
    have h1 : splitPass st [(([] : Str), (-1 : Int))] = [] := by
      simp [splitPass, splitSegment, splitLoop]
    rw [h1]
    clear h1
    induction token_list_ with
    | nil => rfl
    | cons t ts ih =>
      rw [List.foldl_cons]
      exact ih

/-! ## A failed `Add` -/

/-- C20: `Add` with an empty literal throws only after it has written the literal to
`token_map_`: on a fresh object `Add("", 5)` throws, leaves `token_list_` empty and leaves
("", 5) in `token_map_`, and a second `Add("", 5)` then returns without a throw. A throw
for a literal registered with another id leaves the object as it was. -/
theorem Add_empty_not_atomic :
    (GPT2Tokenizer.Add [] 5 GPT2Tokenizer.fresh).1 = .error "Empty special token." ∧
    (GPT2Tokenizer.Add [] 5 GPT2Tokenizer.fresh).2.token_map_ = [([], 5)] ∧
    (GPT2Tokenizer.Add [] 5 GPT2Tokenizer.fresh).2.token_list_ = [] ∧
    (GPT2Tokenizer.Add [] 5 GPT2Tokenizer.fresh).2.token_map_ ≠
      GPT2Tokenizer.fresh.token_map_ ∧
    (GPT2Tokenizer.Add [] 5 (GPT2Tokenizer.Add [] 5 GPT2Tokenizer.fresh).2).1 = .ok () ∧
    (∀ (self : GPT2Tokenizer) (s : Str) (i j : Int),
      UMap.find self.token_map_ s = some j → j ≠ i →
      GPT2Tokenizer.Add s i self = (.error "Duplicate special tokens.", self)) := by
  refine ⟨rfl, rfl, rfl, by decide, rfl, ?_⟩
  intro self s i j hf hne
  rw [Add_of_found self s i j hf, if_pos hne]

/-! ## One iteration of the merge engine replaces every occurrence of the pair -/

theorem bpeSweep_eq_ref (a b c : Int) : ∀ (n : Nat) (l : List Int), l.length ≤ n →
    bpeSweep a b c l = replaceAllRef a b c l := by
  intro n
  induction n with
  | zero =>
    intro l h
    have : l = [] := List.length_eq_zero.mp (by omega)
    subst this
    simp [bpeSweep, replaceAllRef]
  | succ n ih =>
    intro l h
    match l with
    | [] => simp [bpeSweep, replaceAllRef]
    | [x] => simp [bpeSweep, replaceAllRef]
    | x :: y :: t =>
      simp only [List.length_cons] at h
      have h1 := ih (y :: t) (by simp only [List.length_cons]; omega)
      have h2 := ih t (by omega)
      unfold bpeSweep replaceAllRef
      by_cases hx : x = a
      · by_cases hy : y = b
        · simp [hx, hy, h2]
        · simp [hx, hy, h1]
      · simp [hx, h1]

theorem pairAt_drop : ∀ (l : List Int) (pos : Nat) (a b : Int),
    pairAt l pos = some (a, b) → l.drop pos = a :: b :: l.drop (pos + 2) := by
  intro l pos a b h
  unfold pairAt at h
  split at h
  · next x y t hd =>
    simp only [Option.some.injEq, Prod.mk.injEq] at h
    have hd2 : l.drop (pos + 2) = t := by
      rw [← List.drop_drop, hd]
      rfl
    rw [hd, hd2, h.1, h.2]
  · cases h

theorem replaceAllRef_skip (a b c : Int) : ∀ (pos : Nat) (l : List Int),
    (∀ j < pos, pairAt l j ≠ some (a, b)) →
    replaceAllRef a b c l = l.take pos ++ replaceAllRef a b c (l.drop pos) := by
  intro pos
  induction pos with
  | zero => intro l _; simp
  | succ pos ih =>
    intro l h
    match l with
    | [] => simp [replaceAllRef]
    | [x] => simp [replaceAllRef]
    | x :: y :: t =>
      have h0 : ¬(x = a ∧ y = b) := by
        intro hxy
        apply h 0 (by omega)
        rw [pairAt_zero, hxy.1, hxy.2]
      have hrec := ih (y :: t) (by
        intro j hj
        have := h (j + 1) (by omega)
        rw [pairAt_succ] at this
        exact this)
      rw [replaceAllRef, if_neg h0, hrec]
      simp

theorem bpeStep_eq_ref (m : BpeMap) (vals vals1 : List Int) (h : bpeStep m vals = some vals1) :
    ∃ (pos : Nat) (nd : BpeNode),
      (bpeScan m vals).pos_it = some pos ∧
      pairAt vals pos = some ((bpeScan m vals).ori_id1, (bpeScan m vals).ori_id2) ∧
      UMap.find m ((bpeScan m vals).ori_id1, (bpeScan m vals).ori_id2) = some nd ∧
      nd.id = (bpeScan m vals).aim_id ∧
      vals1 = replaceAllRef (bpeScan m vals).ori_id1 (bpeScan m vals).ori_id2
        (bpeScan m vals).aim_id vals := by
  unfold bpeStep at h
  split at h
  · cases hp : (bpeScan m vals).pos_it with
    | none => rw [hp] at h; cases h
    | some pos =>
      rw [hp] at h
      simp only [Option.some.injEq] at h
      obtain ⟨nd, hpair, hfind, hid, _, hmin⟩ := bpeScan_selected m vals pos hp
      refine ⟨pos, nd, rfl, hpair, hfind, hid, ?_⟩
      have hskip := replaceAllRef_skip (bpeScan m vals).ori_id1 (bpeScan m vals).ori_id2
        (bpeScan m vals).aim_id pos vals (by
          intro j hj hj2
          have := (hmin j _ nd hj2 hfind).2 hj
          omega)
      rw [hskip, pairAt_drop vals pos _ _ hpair, replaceAllRef, if_pos ⟨rfl, rfl⟩, ← h,
        bpeMergeAt, bpeSweep_eq_ref _ _ _ _ _ (le_refl _)]
  · cases h

/-- C14: an iteration of the outer loop of `bpe` that merges gives the list that the
reference "replace all" gives for the selected pair (a, b) and its merged id c, scanning
the whole list; the sweep is that reference on the rest of the list, and after a
replacement it goes on behind the c it wrote, whatever a, b and c are. With (A,A) -> D one
pass on [A,A,A] gives [D,A] and on [A,A,A,A] gives [D,D]; with (A,B) -> A one pass on
[A,B,B] gives [A,B]. -/
theorem bpeStep_replaces_all :
    (∀ (m : BpeMap) (vals vals1 : List Int), bpeStep m vals = some vals1 →
      ∃ (a b : Int) (nd : BpeNode),
        (bpeScan m vals).ori_id1 = a ∧ (bpeScan m vals).ori_id2 = b ∧
        (bpeScan m vals).aim_id = nd.id ∧ UMap.find m (a, b) = some nd ∧
        vals1 = replaceAllRef a b nd.id vals) ∧
    (∀ (a b c : Int) (l : List Int), bpeSweep a b c l = replaceAllRef a b c l) ∧
    (∀ (a b c : Int) (t : List Int), bpeSweep a b c (a :: b :: t) = c :: bpeSweep a b c t) ∧
    (∀ A D : Int,
      bpeStep [((A, A), ⟨D, 0⟩)] [A, A, A] = some [D, A] ∧
      bpeStep [((A, A), ⟨D, 0⟩)] [A, A, A, A] = some [D, D]) ∧
    (∀ A B : Int, bpeStep [((A, B), ⟨A, 0⟩)] [A, B, B] = some [A, B]) := by
  refine ⟨?_, ?_, ?_, ?_, ?_⟩
  · intro m vals vals1 h
    obtain ⟨pos, nd, _, _, hfind, hid, heq⟩ := bpeStep_eq_ref m vals vals1 h
    exact ⟨_, _, nd, rfl, rfl, hid.symm, hfind, by rw [hid]; exact heq⟩
  · intro a b c l
    exact bpeSweep_eq_ref a b c l.length l (le_refl _)
  · intro a b c t
    simp [bpeSweep]
  · intro A D
    constructor <;>
      simp [bpeStep, bpeScan, bpeScanFrom, bpeMergeAt, bpeSweep, UMap.find, BpeScan.init,
        INT_MAX]
  · intro A B
    by_cases h : A = B
    · subst h
      simp [bpeStep, bpeScan, bpeScanFrom, bpeMergeAt, bpeSweep, UMap.find, BpeScan.init,
        INT_MAX]
    · simp [bpeStep, bpeScan, bpeScanFrom, bpeMergeAt, bpeSweep, UMap.find, BpeScan.init,
        INT_MAX, h, Ne.symm h]

/-- C14, at the list [1, 2, 3, 1, 2] and the table (1,2) -> (4, rank 0),
(2,3) -> (5, rank 1): one iteration gives [4, 3, 4]. -/
theorem bpeStep_replaces_all_witness :
    bpeStep tableAB [1, 2, 3, 1, 2] = some [4, 3, 4] ∧
    ∃ (a b : Int) (nd : BpeNode),
      (bpeScan tableAB [1, 2, 3, 1, 2]).ori_id1 = a ∧
      (bpeScan tableAB [1, 2, 3, 1, 2]).ori_id2 = b ∧
      (bpeScan tableAB [1, 2, 3, 1, 2]).aim_id = nd.id ∧ UMap.find tableAB (a, b) = some nd ∧
      [4, 3, 4] = replaceAllRef a b nd.id [1, 2, 3, 1, 2] :=
  ⟨by decide, bpeStep_replaces_all.1 tableAB [1, 2, 3, 1, 2] [4, 3, 4] (by decide)⟩

/-! ## The merge engine keeps the text and terminates -/

theorem bpeSweep_text (tok : Int → Str) (a b c : Int) (hc : tok c = tok a ++ tok b) :
    ∀ (n : Nat) (l : List Int), l.length ≤ n →
      ((bpeSweep a b c l).map tok).flatten = (l.map tok).flatten := by
  intro n
  induction n with
  | zero =>
    intro l h
    have : l = [] := List.length_eq_zero.mp (by omega)
    subst this
    simp [bpeSweep]
  | succ n ih =>
    intro l h
    match l with
    | [] => simp [bpeSweep]
    | [x] => simp [bpeSweep]
    | x :: y :: t =>
      simp only [List.length_cons] at h
      have h1 := ih (y :: t) (by simp only [List.length_cons]; omega)
      have h2 := ih t (by omega)
      unfold bpeSweep
      by_cases hx : x = a
      · by_cases hy : y = b
        · simp [hx, hy, h2, hc]
        · simp only [hx, hy, ne_eq, not_true_eq_false, not_false_eq_true, ↓reduceIte,
            List.map_cons, List.flatten_cons] at h1 ⊢
          rw [h1]
      · simp only [hx, ne_eq, not_false_eq_true, ↓reduceIte, List.map_cons,
          List.flatten_cons] at h1 ⊢
        rw [h1]

theorem bpeStep_text (m : BpeMap) (tok : Int → Str)
    (hm : ∀ (key : Int × Int) (node : BpeNode), UMap.find m key = some node →
      tok node.id = tok key.1 ++ tok key.2)
    (vals vals1 : List Int) (h : bpeStep m vals = some vals1) :
    (vals1.map tok).flatten = (vals.map tok).flatten := by
  unfold bpeStep at h
  split at h
  · cases hp : (bpeScan m vals).pos_it with
    | none => rw [hp] at h; cases h
    | some pos =>
      rw [hp] at h
      simp only [Option.some.injEq] at h
      obtain ⟨nd, hpair, hfind, hid, _, _⟩ := bpeScan_selected m vals pos hp
      have hc := hm _ nd hfind
      rw [hid] at hc
      dsimp only at hc
      have hv : vals = vals.take pos ++ ((bpeScan m vals).ori_id1 ::
          (bpeScan m vals).ori_id2 :: vals.drop (pos + 2)) := by
        rw [← pairAt_drop vals pos _ _ hpair, List.take_append_drop]
      rw [← h, bpeMergeAt]
      conv_rhs => rw [hv]
      simp only [List.map_append, List.map_cons, List.flatten_append, List.flatten_cons,
        bpeSweep_text tok _ _ _ hc _ _ (le_refl _), hc, List.append_assoc]
  · cases h

theorem bpeLoop_text (m : BpeMap) (tok : Int → Str)
    (hm : ∀ (key : Int × Int) (node : BpeNode), UMap.find m key = some node →
      tok node.id = tok key.1 ++ tok key.2) (fuel : Nat) :
    ∀ vals : List Int, ((bpeLoop m fuel vals).map tok).flatten = (vals.map tok).flatten := by
  induction fuel with
  | zero => intro vals; rfl
  | succ fuel ih =>
    intro vals
    unfold bpeLoop
    cases hs : bpeStep m vals with
    | none => rfl
    | some vals1 =>
      dsimp only
      rw [ih vals1, bpeStep_text m tok hm vals vals1 hs]

/-- C18: if the token of the merged id of every entry (a, b) -> c of the merge table is the
token of a followed by the token of b, then for every id list the tokens of the output of
`bpe`, joined in order, are the tokens of its input, joined in order. -/
theorem bpe_preserves_text (bpe_map_ : BpeMap) (token : Int → Str)
    (hm : ∀ (key : Int × Int) (node : BpeNode), UMap.find bpe_map_ key = some node →
      token node.id = token key.1 ++ token key.2)
    (vals : List Int) :
    ((GPT2Tokenizer.bpe bpe_map_ vals).map token).flatten = (vals.map token).flatten :=
  bpeLoop_text bpe_map_ token hm vals.length vals

/-- C18, at the table (1,2) -> (4, rank 0), (2,3) -> (5, rank 1), the tokens "a", "b",
"c", "ab", "bc" and the list [1, 2, 3, 1, 2]: both sides are "abcab". -/
theorem bpe_preserves_text_witness :
    ((GPT2Tokenizer.bpe tableAB [1, 2, 3, 1, 2]).map tokenAB).flatten =
      (([1, 2, 3, 1, 2] : List Int).map tokenAB).flatten ∧
    ((GPT2Tokenizer.bpe tableAB [1, 2, 3, 1, 2]).map tokenAB).flatten = ascii "abcab" :=
  ⟨bpe_preserves_text tableAB tokenAB (by
      intro key node h
      have hmem := UMap.find_mem tableAB key node h
      simp only [tableAB, List.mem_cons, Prod.mk.injEq, List.mem_singleton, List.not_mem_nil,
        or_false] at hmem
      rcases hmem with ⟨h1, h2⟩ | ⟨h1, h2⟩ <;> subst h1 <;> subst h2 <;> decide)
    [1, 2, 3, 1, 2],
   by decide⟩

theorem bpeStep_length_pos (m : BpeMap) (vals vals1 : List Int)
    (h : bpeStep m vals = some vals1) : 1 ≤ vals1.length := by
  unfold bpeStep at h
  split at h
  · cases hp : (bpeScan m vals).pos_it with
    | none => rw [hp] at h; cases h
    | some pos =>
      rw [hp] at h
      simp only [Option.some.injEq] at h
      rw [← h]
      simp only [bpeMergeAt, List.length_append, List.length_cons]
      omega
  · cases h

theorem bpeLoop_count (m : BpeMap) (fuel : Nat) : ∀ vals : List Int,
    (bpeLoop m fuel vals).length + bpeMergeCount m fuel vals ≤ vals.length ∧
    (1 ≤ vals.length → 1 ≤ (bpeLoop m fuel vals).length) := by
  induction fuel with
  | zero => intro vals; simp [bpeLoop, bpeMergeCount]
  | succ fuel ih =>
    intro vals
    unfold bpeLoop bpeMergeCount
    cases hs : bpeStep m vals with
    | none => simp
    | some vals1 =>
      dsimp only
      have hlt := bpeStep_length_lt m vals vals1 hs
      have hpos := bpeStep_length_pos m vals vals1 hs
      have := ih vals1
      exact ⟨by omega, fun _ => this.2 hpos⟩

theorem bpeLoop_terminal_pred (m : BpeMap) (fuel : Nat) : ∀ vals : List Int,
    vals.length ≤ fuel + 1 → bpeStep m (bpeLoop m fuel vals) = none := by
  induction fuel with
  | zero =>
    intro vals h
    simp only [bpeLoop, bpeStep]
    rw [if_neg (by omega)]
  | succ fuel ih =>
    intro vals h
    unfold bpeLoop
    cases hs : bpeStep m vals with
    | none => exact hs
    | some vals1 =>
      have := bpeStep_length_lt m vals vals1 hs
      exact ih vals1 (by omega)

theorem bpeLoop_stable (m : BpeMap) (fuel : Nat) : ∀ (vals : List Int) (extra : Nat),
    bpeStep m (bpeLoop m fuel vals) = none →
    bpeLoop m (fuel + extra) vals = bpeLoop m fuel vals ∧
    bpeMergeCount m (fuel + extra) vals = bpeMergeCount m fuel vals := by
  induction fuel with
  | zero =>
    intro vals extra h
    simp only [bpeLoop] at h
    cases extra with
    | zero => exact ⟨rfl, rfl⟩
    | succ e =>
      simp only [Nat.zero_add, bpeLoop, bpeMergeCount, h]
      exact ⟨trivial, trivial⟩
  | succ fuel ih =>
    intro vals extra h
    rw [show fuel + 1 + extra = (fuel + extra) + 1 from by omega]
    cases hs : bpeStep m vals with
    | none => simp only [bpeLoop, bpeMergeCount, hs, and_self]
    | some vals1 =>
      simp only [bpeLoop, bpeMergeCount, hs] at h ⊢
      have := ih vals1 extra h
      exact ⟨this.1, by rw [this.2]⟩

/-- C19: `bpe` terminates for every id list and every merge table. An iteration of the
outer loop that does not stop shortens the list; the loop has stopped after at most
`n - 1` iterations on a list of `n` elements (more iterations change neither the result
nor the number of merges, which is at most `n - 1` for `n ≥ 1`); the output is not longer
than the input; a list of length 0 or 1 is returned unchanged. With the table
(A,B) -> A, whose merged id is an id of the pair, `bpe([A,B,B]) = [A]`. -/
theorem bpe_terminates (m : BpeMap) (vals : List Int) :
    (∀ vals1 : List Int, bpeStep m vals = some vals1 → vals1.length < vals.length) ∧
    bpeStep m (bpeLoop m (vals.length - 1) vals) = none ∧
    bpeLoop m (vals.length - 1) vals = GPT2Tokenizer.bpe m vals ∧
    (∀ extra : Nat,
      bpeLoop m (vals.length - 1 + extra) vals = GPT2Tokenizer.bpe m vals ∧
      bpeMergeCount m (vals.length - 1 + extra) vals = bpeMergeCount m (vals.length - 1) vals) ∧
    (GPT2Tokenizer.bpe m vals).length + bpeMergeCount m (vals.length - 1) vals ≤ vals.length ∧
    (1 ≤ vals.length → bpeMergeCount m (vals.length - 1) vals ≤ vals.length - 1) ∧
    (GPT2Tokenizer.bpe m vals).length ≤ vals.length ∧
    (vals.length ≤ 1 → GPT2Tokenizer.bpe m vals = vals) ∧
    (∀ A B : Int, GPT2Tokenizer.bpe [((A, B), ⟨A, 0⟩)] [A, B, B] = [A]) := by
  have hterm := bpeLoop_terminal_pred m (vals.length - 1) vals (by omega)
  have hstable := bpeLoop_stable m (vals.length - 1) vals
  have heq : bpeLoop m (vals.length - 1) vals = GPT2Tokenizer.bpe m vals := by
    unfold GPT2Tokenizer.bpe
    have := (hstable (vals.length - (vals.length - 1)) hterm).1
    rw [show vals.length - 1 + (vals.length - (vals.length - 1)) = vals.length from by omega]
      at this
    exact this.symm
  have hcount := bpeLoop_count m (vals.length - 1) vals
  rw [heq] at hcount
  refine ⟨fun vals1 h => bpeStep_length_lt m vals vals1 h, hterm, heq, ?_, hcount.1, ?_, ?_,
    ?_, ?_⟩
  · intro extra
    have := hstable extra hterm
    exact ⟨by rw [this.1, heq], this.2⟩
  · intro h1
    have := hcount.2 h1
    omega
  · omega
  · intro h1
    have hs : bpeStep m vals = none := by
      unfold bpeStep
      rw [if_neg (by omega)]
    rw [bpe_unfold, hs]
  · intro A B
    by_cases h : A = B
    · subst h
      simp [GPT2Tokenizer.bpe, bpeLoop, bpeStep, bpeScan, bpeScanFrom, bpeMergeAt, bpeSweep,
        UMap.find, BpeScan.init, INT_MAX]
    · simp [GPT2Tokenizer.bpe, bpeLoop, bpeStep, bpeScan, bpeScanFrom, bpeMergeAt, bpeSweep,
        UMap.find, BpeScan.init, INT_MAX, h, Ne.symm h]

/-- C19, at the list [1, 2, 3, 1, 2] of 5 elements and the table (1,2) -> (4, rank 0),
(2,3) -> (5, rank 1): one merging iteration, at most 4. -/
theorem bpe_terminates_witness :
    bpeMergeCount tableAB (([1, 2, 3, 1, 2] : List Int).length - 1) [1, 2, 3, 1, 2] ≤
      ([1, 2, 3, 1, 2] : List Int).length - 1 ∧
    bpeMergeCount tableAB 4 [1, 2, 3, 1, 2] = 1 ∧
    GPT2Tokenizer.bpe tableAB [7] = [7] :=
  ⟨(bpe_terminates tableAB [1, 2, 3, 1, 2]).2.2.2.2.2.1 (by decide), by decide,
   (bpe_terminates tableAB [7]).2.2.2.2.2.2.2.1 (by decide)⟩

/-! ## `GetNextToken` makes progress -/

theorem GetNextTokenWith_progress (rm : Str → Bool) (self : TokenWithRegularExp) :
    ((TokenWithRegularExp.GetNextTokenWith rm self).1.1 = true →
      (TokenWithRegularExp.GetNextTokenWith rm self).1.2 ≠ [] ∧
      (TokenWithRegularExp.GetNextTokenWith rm self).2.m_text.length < self.m_text.length) ∧
    ((TokenWithRegularExp.GetNextTokenWith rm self).1.1 = false →
      (TokenWithRegularExp.GetNextTokenWith rm self).1 = (false, []) ∧
      (TokenWithRegularExp.GetNextTokenWith rm self).2.m_text = []) := by
  have h := GetNextTokenLoop_spec rm (self.m_text.length + 1) self (by omega)
  unfold TokenWithRegularExp.GetNextTokenWith
  obtain ⟨hnil, hcase⟩ := h
  constructor
  · intro ht
    rcases hcase with h1 | ⟨_, matched, h2, h3, _, h4⟩
    · rw [h1] at ht; cases ht
    · refine ⟨by rw [h4]; exact List.cons_ne_nil _ _, ?_⟩
      rw [hnil]
      have hlen := List.IsSuffix.length_le h3
      have := List.length_pos.mpr h2
      simp only [List.length_nil]
      omega
  · intro hf
    rcases hcase with h1 | ⟨h2, _⟩
    · exact ⟨h1, hnil⟩
    · rw [h2] at hf; cases hf

theorem fragmentsLoop_length_le (rm : Str → Bool) (fuel : Nat) :
    ∀ self : TokenWithRegularExp, (fragmentsLoop rm fuel self).length ≤ self.m_text.length := by
  induction fuel with
  | zero => intro self; simp [fragmentsLoop]
  | succ fuel ih =>
    intro self
    unfold fragmentsLoop
    dsimp only
    split
    · next ht =>
      have hp := (GetNextTokenWith_progress rm self).1 ht
      have := ih (TokenWithRegularExp.GetNextTokenWith rm self).2
      simp only [List.length_cons]
      omega
    · simp

theorem fragmentsLoop_fuel (rm : Str → Bool) (fuel1 : Nat) :
    ∀ (fuel2 : Nat) (self : TokenWithRegularExp),
      self.m_text.length < fuel1 → self.m_text.length < fuel2 →
      fragmentsLoop rm fuel1 self = fragmentsLoop rm fuel2 self := by
  induction fuel1 with
  | zero => intro fuel2 self h1 _; omega
  | succ fuel1 ih =>
    intro fuel2 self h1 h2
    cases fuel2 with
    | zero => omega
    | succ fuel2 =>
      unfold fragmentsLoop
      dsimp only
      split
      · next ht =>
        have hp := (GetNextTokenWith_progress rm self).1 ht
        rw [ih fuel2 _ (by omega) (by omega)]
      · rfl

/-- The fragments of a text as a recursion on the text that is left. -/
theorem fragments_unfold (rm : Str → Bool) (text : Str) :
    fragments rm text =
      if (TokenWithRegularExp.GetNextTokenWith rm (TokenWithRegularExp.Set text)).1.1 then
        (TokenWithRegularExp.GetNextTokenWith rm (TokenWithRegularExp.Set text)).1.2 ::
          fragments rm
            (TokenWithRegularExp.GetNextTokenWith rm (TokenWithRegularExp.Set text)).2.m_text
      else [] := by
  unfold fragments
  rw [fragmentsLoop]
  by_cases ht : (TokenWithRegularExp.GetNextTokenWith rm (TokenWithRegularExp.Set text)).1.1 = true
  · have hp := (GetNextTokenWith_progress rm (TokenWithRegularExp.Set text)).1 ht
    have hset : (TokenWithRegularExp.Set text).m_text = text := rfl
    rw [hset] at hp
    simp only [ht, if_true]
    congr 1
    exact fragmentsLoop_fuel rm _ _ _ (by omega) (by simp [TokenWithRegularExp.Set])
  · simp only [ht, Bool.false_eq_true, if_false]

/-- C15: `GetNextToken` terminates on every text and makes progress, whatever the pattern
matches. When the text is not empty and does not match, the call drops exactly one byte
and retries; a fragment returned with `true` is not empty and leaves a strictly shorter
text; `false` is returned with the empty fragment and only with the text used up. So the
fragments produced from a text are at most as many as its bytes. -/
theorem GetNextToken_progress (rm : Str → Bool) (self : TokenWithRegularExp) :
    (self.m_text ≠ [] → rm self.m_text = false →
      (TokenWithRegularExp.TryMatchWith rm self).1 = [] ∧
      TokenWithRegularExp.GetNextTokenWith rm self =
        TokenWithRegularExp.GetNextTokenWith rm { m_text := self.m_text.drop 1 }) ∧
    ((TokenWithRegularExp.GetNextTokenWith rm self).1.1 = true →
      (TokenWithRegularExp.GetNextTokenWith rm self).1.2 ≠ [] ∧
      (TokenWithRegularExp.GetNextTokenWith rm self).2.m_text.length < self.m_text.length) ∧
    ((TokenWithRegularExp.GetNextTokenWith rm self).1.1 = false →
      (TokenWithRegularExp.GetNextTokenWith rm self).1 = (false, []) ∧
      (TokenWithRegularExp.GetNextTokenWith rm self).2.m_text = []) ∧
    (self.m_text = [] → TokenWithRegularExp.GetNextTokenWith rm self = ((false, []), self)) ∧
    (fragments rm self.m_text).length ≤ self.m_text.length ∧
    TokenWithRegularExp.GetNextToken self =
      TokenWithRegularExp.GetNextTokenWith expression_match self := by
  refine ⟨?_, (GetNextTokenWith_progress rm self).1, (GetNextTokenWith_progress rm self).2,
    GetNextTokenWith_nil rm self, ?_, rfl⟩
  · intro hne hm
    have h1 : TokenWithRegularExp.TryMatchWith rm self = ([], self) := by
      rw [TryMatchWith_eq]; simp [hm]
    refine ⟨by rw [h1], ?_⟩
    rw [GetNextTokenWith_unfold, if_pos hne, h1]
    simp
  · exact fragmentsLoop_length_le rm _ (TokenWithRegularExp.Set self.m_text)

/-- C15, at the text "hello world" and the pattern of `TryMatch`: the text does not match
as a whole, so the first byte is dropped; the only fragment is "\x00", returned for the
suffix "d". -/
theorem GetNextToken_progress_witness :
    TokenWithRegularExp.GetNextTokenWith expression_match
        (TokenWithRegularExp.Set (ascii "hello world")) =
      TokenWithRegularExp.GetNextTokenWith expression_match
        { m_text := (ascii "hello world").drop 1 } ∧
    fragments expression_match (ascii "hello world") = [[0]] ∧
    (fragments expression_match (ascii "hello world")).length ≤ (ascii "hello world").length :=
  ⟨((GetNextToken_progress expression_match (TokenWithRegularExp.Set (ascii "hello world"))).1
      (by decide) (by decide)).2,
   by decide,
   (GetNextToken_progress expression_match
      (TokenWithRegularExp.Set (ascii "hello world"))).2.2.2.2.1⟩

/-! ## What the special-token splitter leaves untagged -/

theorem search_min (needle : Str) : ∀ (hay : Str) (j : Nat),
    needle.isPrefixOf (hay.drop j) = true → search hay needle ≤ j := by
  intro hay
  induction hay with
  | nil => intro j _; simp [search]
  | cons c t ih =>
    intro j h
    unfold search
    split
    · omega
    · next hp =>
      cases j with
      | zero => exact absurd h hp
      | succ j =>
        have := ih j (by simpa using h)
        omega

theorem not_infix_take_search (needle : Str) (hne : needle ≠ []) (hay : Str) :
    ¬ needle <:+: hay.take (search hay needle) := by
  rintro ⟨p, q, hpq⟩
  have hk := search_le needle hay
  have hlen : (hay.take (search hay needle)).length = search hay needle := by
    rw [List.length_take]; omega
  have hsum : p.length + needle.length + q.length = search hay needle := by
    rw [← hlen, ← hpq]; simp only [List.length_append]
  have hhay : hay = p ++ (needle ++ (q ++ hay.drop (search hay needle))) := by
    conv_lhs => rw [← List.take_append_drop (search hay needle) hay, ← hpq]
    simp
  have hdrop : hay.drop p.length = needle ++ (q ++ hay.drop (search hay needle)) := by
    conv_lhs => rw [hhay]
    simp
  have hmin := search_min needle hay p.length (by
    rw [hdrop, List.isPrefixOf_iff_prefix]
    exact List.prefix_append _ _)
  have := List.length_pos.mpr hne
  omega

theorem splitLoop_segments (st : SpecialTokenInfo) (fuel : Nat) :
    ∀ rest : Str, ∀ seg ∈ splitLoop st fuel rest,
      seg.1 ≠ [] ∧ seg.1 <:+: rest ∧
      (seg = st.pair ∨ (seg.2 = -1 ∧ ¬ st.str <:+: seg.1)) := by
  induction fuel with
  | zero => intro rest seg h; simp [splitLoop] at h
  | succ fuel ih =>
    intro rest seg h
    unfold splitLoop at h
    split at h
    · next hne =>
      dsimp only at h
      split at h
      · next hend =>
        simp only [List.mem_singleton] at h
        subst h
        refine ⟨hne, List.infix_refl _, Or.inr ⟨rfl, ?_⟩⟩
        intro hin
        have := search_lt_of_infix st.str st.str_nonempty rest hin
        omega
      · next hk =>
        have hlt : search rest st.str < rest.length := by
          have := search_le st.str rest
          omega
        rw [search_found st.str rest hlt] at h
        rcases List.mem_append.mp h with h1 | h1
        · split at h1
          · next hk0 =>
            simp only [List.mem_singleton] at h1
            subst h1
            refine ⟨?_, (List.take_prefix _ _).isInfix,
              Or.inr ⟨rfl, not_infix_take_search st.str st.str_nonempty rest⟩⟩
            intro h0
            have := congrArg List.length h0
            simp only [List.length_take, List.length_nil] at this
            omega
          · simp at h1
        · rcases List.mem_cons.mp h1 with h2 | h2
          · subst h2
            refine ⟨st.str_nonempty, ?_, Or.inl rfl⟩
            have hf := search_found st.str rest hlt
            rw [← hf]
            exact List.IsInfix.trans (List.take_prefix _ _).isInfix
              (List.drop_suffix _ _).isInfix
          · have := ih _ seg h2
            exact ⟨this.1, List.IsInfix.trans this.2.1 (List.drop_suffix _ _).isInfix, this.2.2⟩
    · simp at h

theorem splitPass_nonempty (st : SpecialTokenInfo) (res : List Segment)
    (h : ∀ seg ∈ res, seg.2 ≠ -1 → seg.1 ≠ []) :
    ∀ seg ∈ splitPass st res, seg.1 ≠ [] := by
  intro seg hseg
  simp only [splitPass, List.mem_flatMap] at hseg
  obtain ⟨seg0, h0, hmem⟩ := hseg
  unfold splitSegment at hmem
  split at hmem
  · next ht =>
    simp only [List.mem_singleton] at hmem
    subst hmem
    exact h seg h0 ht
  · exact (splitLoop_segments st _ _ seg hmem).1

theorem splitFold_nonempty (ts : List SpecialTokenInfo) :
    ∀ res : List Segment, (∀ seg ∈ res, seg.1 ≠ []) →
      ∀ seg ∈ ts.foldl (fun res st => splitPass st res) res, seg.1 ≠ [] := by
  induction ts with
  | nil => intro res h; exact h
  | cons st ts ih =>
    intro res h
    rw [List.foldl_cons]
    exact ih _ (splitPass_nonempty st res (fun seg hs _ => h seg hs))

theorem splitPass_free_self (st : SpecialTokenInfo) (hid : st.id ≠ -1) (res : List Segment) :
    ∀ seg ∈ splitPass st res, seg.2 = -1 → ¬ st.str <:+: seg.1 := by
  intro seg hseg htag
  simp only [splitPass, List.mem_flatMap] at hseg
  obtain ⟨seg0, _, hmem⟩ := hseg
  unfold splitSegment at hmem
  split at hmem
  · next ht =>
    simp only [List.mem_singleton] at hmem
    subst hmem
    exact absurd htag ht
  · rcases (splitLoop_segments st _ _ seg hmem).2.2 with h1 | h1
    · rw [h1] at htag
      exact absurd htag hid
    · exact h1.2

theorem splitPass_free_other (lit : Str) (st : SpecialTokenInfo) (res : List Segment)
    (h : ∀ seg ∈ res, seg.2 = -1 → ¬ lit <:+: seg.1) :
    ∀ seg ∈ splitPass st res, seg.2 = -1 → ¬ lit <:+: seg.1 := by
  intro seg hseg htag hin
  simp only [splitPass, List.mem_flatMap] at hseg
  obtain ⟨seg0, h0, hmem⟩ := hseg
  unfold splitSegment at hmem
  split at hmem
  · simp only [List.mem_singleton] at hmem
    subst hmem
    exact h seg h0 htag hin
  · next ht =>
    have ht0 : seg0.2 = -1 := by simpa using ht
    have := (splitLoop_segments st _ _ seg hmem).2.1
    exact h seg0 h0 ht0 (List.IsInfix.trans hin this)

theorem splitFold_free (lit : Str) (ts : List SpecialTokenInfo) :
    ∀ res : List Segment, (∀ seg ∈ res, seg.2 = -1 → ¬ lit <:+: seg.1) →
      ∀ seg ∈ ts.foldl (fun res st => splitPass st res) res, seg.2 = -1 → ¬ lit <:+: seg.1 := by
  induction ts with
  | nil => intro res h; exact h
  | cons st ts ih =>
    intro res h
    rw [List.foldl_cons]
    exact ih _ (splitPass_free_other lit st res h)

/-- C17 as stated fails for a special token registered with the id -1: with "ab" (id -1)
as the only token, the input "ab" is split into the single segment ("ab", -1), a segment
with the tag -1 that contains the literal of a registered token. -/
theorem SplitBySpeicalTokens_sentinel_id :
    GPT2Tokenizer.SplitBySpeicalTokens
        [{ str := ascii "ab", id := -1, str_nonempty := by decide }] (ascii "ab") =
      [(ascii "ab", -1)] ∧
    ¬ (∀ seg ∈ GPT2Tokenizer.SplitBySpeicalTokens
          [{ str := ascii "ab", id := -1, str_nonempty := by decide }] (ascii "ab"),
        seg.2 = -1 →
        ∀ st ∈ [({ str := ascii "ab", id := -1, str_nonempty := by decide } : SpecialTokenInfo)],
          ¬ st.str <:+: seg.1) := by
  have h : GPT2Tokenizer.SplitBySpeicalTokens
        [{ str := ascii "ab", id := -1, str_nonempty := by decide }] (ascii "ab") =
      [(ascii "ab", -1)] := by decide
  refine ⟨h, ?_⟩
  rw [h]
  intro hall
  exact hall (ascii "ab", -1) (List.mem_singleton.mpr rfl) rfl _ (List.mem_singleton.mpr rfl)
    (List.infix_refl _)

/-- C17, amended: for every input and every list of registered special tokens, no segment
of the result with the tag -1 contains the literal of a registered special token whose id
is not -1, and when at least one special token is registered no segment of the result has
an empty text. -/
theorem SplitBySpeicalTokens_untagged_free (token_list_ : List SpecialTokenInfo)
    (input : Str) :
    (∀ st ∈ token_list_, st.id ≠ -1 →
      ∀ seg ∈ GPT2Tokenizer.SplitBySpeicalTokens token_list_ input,
        seg.2 = -1 → ¬ st.str <:+: seg.1) ∧
    (token_list_ ≠ [] →
      ∀ seg ∈ GPT2Tokenizer.SplitBySpeicalTokens token_list_ input, seg.1 ≠ []) := by
  constructor
  · intro st hst hid
    obtain ⟨ts1, ts2, hts⟩ := List.append_of_mem hst
    unfold GPT2Tokenizer.SplitBySpeicalTokens
    rw [hts, List.foldl_append, List.foldl_cons]
    exact splitFold_free st.str ts2 _ (splitPass_free_self st hid _)
  · intro hne
    cases token_list_ with
    | nil => exact absurd rfl hne
    | cons st ts =>
      unfold GPT2Tokenizer.SplitBySpeicalTokens
      rw [List.foldl_cons]
      apply splitFold_nonempty
      apply splitPass_nonempty
      intro seg hseg ht
      simp only [List.mem_singleton] at hseg
      rw [hseg] at ht
      exact absurd rfl ht

/-- C17 amended, at the tokens "ab" (id 1) and "bc" (id 2) and the input "abcab". -/
theorem SplitBySpeicalTokens_untagged_free_witness :
    GPT2Tokenizer.SplitBySpeicalTokens
        [{ str := ascii "ab", id := 1, str_nonempty := by decide },
         { str := ascii "bc", id := 2, str_nonempty := by decide }] (ascii "abcab") =
      [(ascii "ab", 1), (ascii "c", -1), (ascii "ab", 1)] ∧
    (∀ seg ∈ GPT2Tokenizer.SplitBySpeicalTokens
        [{ str := ascii "ab", id := 1, str_nonempty := by decide },
         { str := ascii "bc", id := 2, str_nonempty := by decide }] (ascii "abcab"),
      seg.2 = -1 → ¬ ascii "bc" <:+: seg.1) ∧
    (∀ seg ∈ GPT2Tokenizer.SplitBySpeicalTokens
        [{ str := ascii "ab", id := 1, str_nonempty := by decide },
         { str := ascii "bc", id := 2, str_nonempty := by decide }] (ascii "abcab"),
      seg.1 ≠ []) :=
  ⟨by decide,
   (SplitBySpeicalTokens_untagged_free
      [{ str := ascii "ab", id := 1, str_nonempty := by decide },
       { str := ascii "bc", id := 2, str_nonempty := by decide }] (ascii "abcab")).1
      { str := ascii "bc", id := 2, str_nonempty := by decide }
      (by simp) (by decide),
   (SplitBySpeicalTokens_untagged_free
      [{ str := ascii "ab", id := 1, str_nonempty := by decide },
       { str := ascii "bc", id := 2, str_nonempty := by decide }] (ascii "abcab")).2
      (by simp)⟩

/-! ## The id -> token array -/

theorem insertFold_nodup : ∀ (members : List (Str × Int)) (m : UMap Str Int),
    (m.map Prod.fst).Nodup →
    ((members.foldl (fun m ite => UMap.insert m ite.1 ite.2) m).map Prod.fst).Nodup := by
  intro members
  induction members with
  | nil => intro m h; exact h
  | cons e rest ih =>
    intro m h
    rw [List.foldl_cons]
    apply ih
    unfold UMap.insert
    cases hf : UMap.find m e.1 with
    | some v => exact h
    | none =>
      simp only [List.map_append, List.map_cons, List.map_nil]
      rw [List.nodup_append]
      refine ⟨h, by simp, ?_⟩
      intro a ha hb
      simp only [List.mem_singleton] at hb
      subst hb
      exact (UMap.find_none_iff _ _).mp hf ha

theorem VocabBijective_append (m : UMap Str Int) (k : Str) (h : VocabBijective m)
    (hk : UMap.find m k = none) : VocabBijective (m ++ [(k, ((UMap.size m : Nat) : Int))]) := by
  obtain ⟨hnd, hperm⟩ := h
  constructor
  · simp only [List.map_append, List.map_cons, List.map_nil]
    rw [List.nodup_append]
    refine ⟨hnd, by simp, ?_⟩
    intro a ha hb
    simp only [List.mem_singleton] at hb
    subst hb
    exact (UMap.find_none_iff _ _).mp hk ha
  · simp only [List.map_append, List.map_cons, List.map_nil, List.length_append,
      List.length_singleton, List.range_succ, UMap.size]
    exact List.Perm.append hperm (List.Perm.refl _)

theorem loadVocab_bijective (members : List (Str × Int)) (unk_token : Str)
    (self : GPT2Tokenizer)
    (h : VocabBijective (members.foldl (fun m ite => UMap.insert m ite.1 ite.2) [])) :
    VocabBijective (loadVocab members unk_token self).vocab_map_ := by
  unfold loadVocab
  dsimp only
  cases hf : UMap.find (members.foldl (fun m ite => UMap.insert m ite.1 ite.2)
      ([] : UMap Str Int)) unk_token with
  | some v => exact h
  | none =>
    dsimp only
    rw [UMap.assign_absent _ _ _ hf]
    exact VocabBijective_append _ _ h hf

theorem loadSpecialTokens_bijective : ∀ (words : List Str) (self self1 : GPT2Tokenizer),
    loadSpecialTokens words self = .ok self1 → VocabBijective self.vocab_map_ →
    VocabBijective self1.vocab_map_ := by
  intro words
  induction words with
  | nil =>
    intro self self1 h hb
    simp only [loadSpecialTokens, Except.ok.injEq] at h
    subst h
    exact hb
  | cons w words ih =>
    intro self self1 h hb
    unfold loadSpecialTokens at h
    split at h
    · exact ih self self1 h hb
    · dsimp only at h
      split at h
      · cases h
      · next u self2 hadd =>
        apply ih self2 self1 h
        cases hf : UMap.find self.vocab_map_ (stripCR w) with
        | some second =>
          rw [hf] at hadd
          dsimp only at hadd
          rw [(Add_result_vocab_unk hadd).1]
          exact hb
        | none =>
          rw [hf] at hadd
          dsimp only at hadd
          have hp := (Add_result_vocab_unk hadd).1
          dsimp only at hp
          rw [hp, UMap.assign_absent _ _ _ hf]
          exact VocabBijective_append _ _ hb hf

theorem Load_ok_stages (conv : Str → Int) (members : List (Str × Int)) (merges_lines : List Str)
    (unk_token special_tokens : Str) (self self1 : GPT2Tokenizer)
    (h : GPT2Tokenizer.Load conv members merges_lines unk_token special_tokens self = .ok self1)
    (hb : VocabBijective (members.foldl (fun m ite => UMap.insert m ite.1 ite.2) [])) :
    ∃ self2 : GPT2Tokenizer, self1 = loadId2Token self2 ∧ VocabBijective self2.vocab_map_ := by
  unfold GPT2Tokenizer.Load at h
  dsimp only at h
  split at h
  · cases h
  · next merged _ =>
    split at h
    · cases h
    · next self2 hl =>
      simp only [Except.ok.injEq] at h
      refine ⟨self2, h.symm, ?_⟩
      have hv := loadVocab_bijective members unk_token self hb
      split at hl
      · exact loadSpecialTokens_bijective _ _ _ hl hv
      · simp only [Except.ok.injEq] at hl
        subst hl
        exact hv

theorem fillFold_length : ∀ (l : List (Str × Int)) (tbl : List Str),
    (l.foldl (fun tbl ite => if 0 ≤ ite.2 then tbl.set ite.2.toNat ite.1 else tbl) tbl).length =
      tbl.length := by
  intro l
  induction l with
  | nil => intro tbl; rfl
  | cons e rest ih =>
    intro tbl
    rw [List.foldl_cons, ih]
    split <;> simp

theorem fillFold_untouched (j : Nat) : ∀ (l : List (Str × Int)) (tbl : List Str),
    (∀ e ∈ l, 0 ≤ e.2 → e.2.toNat ≠ j) →
    (l.foldl (fun tbl ite => if 0 ≤ ite.2 then tbl.set ite.2.toNat ite.1 else tbl) tbl)[j]? =
      tbl[j]? := by
  intro l
  induction l with
  | nil => intro tbl _; rfl
  | cons e rest ih =>
    intro tbl h
    rw [List.foldl_cons, ih _ (fun e1 h1 => h e1 (List.mem_cons_of_mem _ h1))]
    split
    · next h0 =>
      have := h e (List.mem_cons_self _ _) h0
      simp [List.getElem?_set, this]
    · rfl

theorem fillFold_get : ∀ (l : List (Str × Int)) (tbl : List Str),
    (l.map Prod.snd).Nodup → (∀ e ∈ l, 0 ≤ e.2 ∧ e.2.toNat < tbl.length) →
    ∀ e ∈ l,
      (l.foldl (fun tbl ite => if 0 ≤ ite.2 then tbl.set ite.2.toNat ite.1 else tbl)
        tbl)[e.2.toNat]? = some e.1 := by
  intro l
  induction l with
  | nil => intro tbl _ _ e he; simp at he
  | cons e0 rest ih =>
    intro tbl hnd hb e he
    simp only [List.map_cons, List.nodup_cons] at hnd
    have hb0 := hb e0 (List.mem_cons_self _ _)
    rw [List.foldl_cons, if_pos hb0.1]
    rcases List.mem_cons.mp he with h1 | h1
    · subst h1
      rw [fillFold_untouched]
      · simp [List.getElem?_set, hb0.2]
      · intro e1 h1 h2 heq
        apply hnd.1
        have : e1.2 = e.2 := by
          have h3 := hb0.1
          omega
        rw [← this]
        exact List.mem_map.mpr ⟨e1, h1, rfl⟩
    · apply ih _ hnd.2 _ e h1
      intro e1 he1
      have := hb e1 (List.mem_cons_of_mem _ he1)
      simpa using this

theorem VocabBijective_ids (m : UMap Str Int) (h : VocabBijective m) :
    (m.map Prod.snd).Nodup ∧ (∀ e ∈ m, 0 ≤ e.2 ∧ e.2.toNat < m.length) ∧
    (∀ j < m.length, ∃ t : Str, (t, (j : Int)) ∈ m) := by
  obtain ⟨_, hperm⟩ := h
  refine ⟨?_, ?_, ?_⟩
  · rw [hperm.nodup_iff]
    exact (List.nodup_range _).map (fun a b hab => Int.ofNat.inj hab)
  · intro e he
    have : e.2 ∈ m.map Prod.snd := List.mem_map.mpr ⟨e, he, rfl⟩
    rw [hperm.mem_iff] at this
    obtain ⟨k, hk, hke⟩ := List.mem_map.mp this
    rw [List.mem_range] at hk
    rw [← hke]
    exact ⟨Int.ofNat_nonneg k, by simpa using hk⟩
  · intro j hj
    have : (j : Int) ∈ (List.range m.length).map Int.ofNat :=
      List.mem_map.mpr ⟨j, List.mem_range.mpr hj, rfl⟩
    rw [← hperm.mem_iff] at this
    obtain ⟨e, he, hej⟩ := List.mem_map.mp this
    exact ⟨e.1, by rw [← hej]; exact he⟩

theorem loadId2Token_inverse (self : GPT2Tokenizer) (h : VocabBijective self.vocab_map_) :
    (loadId2Token self).vocab_map_ = self.vocab_map_ ∧
    (loadId2Token self).id2token_map_.length = UMap.size self.vocab_map_ ∧
    (∀ (t : Str) (i : Int), UMap.find self.vocab_map_ t = some i →
      0 ≤ i ∧ (loadId2Token self).id2token_map_[i.toNat]? = some t) ∧
    (∀ (j : Nat) (t : Str), (loadId2Token self).id2token_map_[j]? = some t →
      UMap.find self.vocab_map_ t = some (j : Int)) := by
  obtain ⟨hnd, hb, hsurj⟩ := VocabBijective_ids _ h
  have hlen0 : (self.id2token_map_.take (UMap.size self.vocab_map_) ++
      List.replicate (UMap.size self.vocab_map_ - self.id2token_map_.length) ([] : Str)).length =
      self.vocab_map_.length := by
    simp only [List.length_append, List.length_take, List.length_replicate, UMap.size]
    omega
  have hlen : (loadId2Token self).id2token_map_.length = self.vocab_map_.length := by
    unfold loadId2Token
    dsimp only
    rw [fillFold_length, hlen0]
  have hget : ∀ e ∈ self.vocab_map_,
      (loadId2Token self).id2token_map_[e.2.toNat]? = some e.1 := by
    intro e he
    unfold loadId2Token
    dsimp only
    exact fillFold_get _ _ hnd (by rw [hlen0]; exact hb) e he
  refine ⟨rfl, hlen, ?_, ?_⟩
  · intro t i hf
    have hmem := UMap.find_mem _ _ _ hf
    exact ⟨(hb _ hmem).1, hget _ hmem⟩
  · intro j t hj
    have hjlt : j < self.vocab_map_.length := by
      rw [← hlen]
      exact (List.getElem?_eq_some_iff.mp hj).1
    obtain ⟨t1, ht1⟩ := hsurj j hjlt
    have := hget _ ht1
    simp only [Int.toNat_ofNat] at this
    rw [hj] at this
    simp only [Option.some.injEq] at this
    rw [this]
    exact UMap.find_of_mem _ _ _ h.1 ht1

/-- C11: if the ids of the source vocabulary are a bijection onto [0, N), then after a
`Load` that returns, the vocabulary, with the unknown token and the special tokens that
were appended, still has ids that are a bijection onto its index range; `id2token_map_`
has as many entries as the vocabulary; `id2token_map_[vocab_map_[t]] = t` for every token
`t` of the vocabulary, and `vocab_map_[id2token_map_[j]] = j` for every index `j` of the
array. -/
theorem Load_id2token_inverse (ConvertTokenToId : Str → Int) (members : List (Str × Int))
    (merges_lines : List Str) (unk_token special_tokens : Str) (self self1 : GPT2Tokenizer)
    (hload : GPT2Tokenizer.Load ConvertTokenToId members merges_lines unk_token special_tokens
      self = .ok self1)
    (hbij : VocabBijective (members.foldl (fun m ite => UMap.insert m ite.1 ite.2) [])) :
    VocabBijective self1.vocab_map_ ∧
    self1.id2token_map_.length = UMap.size self1.vocab_map_ ∧
    (∀ (t : Str) (i : Int), UMap.find self1.vocab_map_ t = some i →
      0 ≤ i ∧ self1.id2token_map_[i.toNat]? = some t) ∧
    (∀ (j : Nat) (t : Str), self1.id2token_map_[j]? = some t →
      UMap.find self1.vocab_map_ t = some (j : Int)) := by
  obtain ⟨self2, h1, h2⟩ := Load_ok_stages ConvertTokenToId members merges_lines unk_token
    special_tokens self self1 hload hbij
  have h := loadId2Token_inverse self2 h2
  rw [← h1] at h
  obtain ⟨hv, hlen, hfwd, hbwd⟩ := h
  rw [← hv] at hlen hfwd hbwd h2
  exact ⟨h2, hlen, hfwd, hbwd⟩

/-- C11, at the vocabulary "a" -> 0, "b" -> 1, the merge line "a b", the unknown token
"<unk>" and the special token "<s>", loaded into a fresh object: the array is "a", "b",
"<unk>", "<s>". -/
theorem Load_id2token_inverse_witness :
    ∃ self1 : GPT2Tokenizer,
      GPT2Tokenizer.Load codePointId [(ascii "a", 0), (ascii "b", 1)] [ascii "a b"]
        (ascii "<unk>") (ascii "<s>") GPT2Tokenizer.fresh = .ok self1 ∧
      self1.id2token_map_ = [ascii "a", ascii "b", ascii "<unk>", ascii "<s>"] ∧
      self1.id2token_map_.length = UMap.size self1.vocab_map_ ∧
      (∀ (t : Str) (i : Int), UMap.find self1.vocab_map_ t = some i →
        0 ≤ i ∧ self1.id2token_map_[i.toNat]? = some t) ∧
      (∀ (j : Nat) (t : Str), self1.id2token_map_[j]? = some t →
        UMap.find self1.vocab_map_ t = some (j : Int)) := by
  have harr : (GPT2Tokenizer.Load codePointId [(ascii "a", 0), (ascii "b", 1)] [ascii "a b"]
      (ascii "<unk>") (ascii "<s>") GPT2Tokenizer.fresh).toOption.map
        (fun s => s.id2token_map_) =
      some [ascii "a", ascii "b", ascii "<unk>", ascii "<s>"] := by decide
  cases hL : GPT2Tokenizer.Load codePointId [(ascii "a", 0), (ascii "b", 1)] [ascii "a b"]
      (ascii "<unk>") (ascii "<s>") GPT2Tokenizer.fresh with
  | error e => rw [hL] at harr; cases harr
  | ok self1 =>
    rw [hL] at harr
    have h := Load_id2token_inverse codePointId [(ascii "a", 0), (ascii "b", 1)] [ascii "a b"]
      (ascii "<unk>") (ascii "<s>") GPT2Tokenizer.fresh self1 hL ⟨by decide, by decide⟩
    refine ⟨self1, rfl, ?_, h.2.1, h.2.2.1, h.2.2.2⟩
    simpa [Except.toOption] using harr

/-! ## Header lines of the merges source -/

theorem loadMerges_skip_hash (conv : Str → Int) (line : Str) (lines : List Str) (m : BpeMap)
    (h : (stripCR line).head? = some 35) :
    loadMerges conv (line :: lines) (m, 0) = loadMerges conv lines (m, 0) := by
  rw [loadMerges]
  dsimp only
  split
  · rfl
  · rw [if_pos ⟨h, rfl⟩]

theorem loadMerges_skip_blank (conv : Str → Int) (line : Str) (lines : List Str) (m : BpeMap)
    (index : Int) (h : stripCR line = []) :
    loadMerges conv (line :: lines) (m, index) = loadMerges conv lines (m, index) := by
  rw [loadMerges]
  dsimp only
  rw [if_pos h]

theorem loadMerges_rule (conv : Str → Int) (line : Str) (lines : List Str) (m : BpeMap)
    (index : Int) (hne : stripCR line ≠ [])
    (h : (stripCR line).head? ≠ some 35 ∨ index ≠ 0) :
    loadMerges conv (line :: lines) (m, index) =
      match findSpace (stripCR line) with
      | none => .error "Cannot know how to parse line: "
      | some pos =>
        loadMerges conv lines
          (UMap.assign m
            (conv ((stripCR line).take pos), conv ((stripCR line).drop (pos + 1)))
            { id := conv ((stripCR line).take pos ++ (stripCR line).drop (pos + 1)),
              value := index },
           index + 1) := by
  rw [loadMerges]
  dsimp only
  rw [if_neg hne, if_neg (by
    rintro ⟨h1, h2⟩
    rcases h with h | h
    · exact h h1
    · exact h h2)]

/-- C12 as stated fails: for the lines "#version: 0.2", "# a", "b c", the line "# a" is
skipped, as no rule was accepted before it; it is not recorded as the rule ("#", "a"), and
"b c" gets the rank 0, not 1. -/
theorem loadMerges_second_hash_line_skipped :
    (loadMerges codePointId [ascii "#version: 0.2", ascii "# a", ascii "b c"]
        ([], 0)).toOption.map (fun r =>
          (UMap.find r.1 (codePointId (ascii "#"), codePointId (ascii "a")),
           (UMap.find r.1 (codePointId (ascii "b"), codePointId (ascii "c"))).map
             (fun node => node.value),
           r.2)) =
      some (none, some 0, 1) ∧
    (loadMerges codePointId [ascii "#version: 0.2", ascii "# a", ascii "b c"]
        ([], 0)).toOption.map (fun r =>
          ((UMap.find r.1 (codePointId (ascii "#"), codePointId (ascii "a"))).map
             (fun node => node.value),
           (UMap.find r.1 (codePointId (ascii "b"), codePointId (ascii "c"))).map
             (fun node => node.value))) ≠
      some (some 0, some 1) := by
  constructor <;> decide

/-- C12, amended: when `Load` reads the merges source, a line that starts with '#' is
skipped exactly when no merge rule was accepted before it (the counter `index` is 0), so
every such line ahead of the first rule is skipped with the blank lines; a line that starts
with '#' after an accepted rule is treated as a merge rule, as any other line is: split at
its first space and given the next rank, or a parse error without a space. For the lines
"#version: 0.2", "# a", "b c", "# d": "# a" is skipped, "b c" gets the rank 0 and "# d" is
the rule ("#", "d") with the rank 1. -/
theorem loadMerges_header_lines (ConvertTokenToId : Str → Int) :
    (∀ (header lines : List Str) (bpe_map_ : BpeMap),
      (∀ line ∈ header, stripCR line = [] ∨ (stripCR line).head? = some 35) →
      loadMerges ConvertTokenToId (header ++ lines) (bpe_map_, 0) =
        loadMerges ConvertTokenToId lines (bpe_map_, 0)) ∧
    (∀ (line : Str) (lines : List Str) (bpe_map_ : BpeMap) (index : Int),
      stripCR line ≠ [] → ((stripCR line).head? ≠ some 35 ∨ index ≠ 0) →
      loadMerges ConvertTokenToId (line :: lines) (bpe_map_, index) =
        match findSpace (stripCR line) with
        | none => .error "Cannot know how to parse line: "
        | some pos =>
          loadMerges ConvertTokenToId lines
            (UMap.assign bpe_map_
              (ConvertTokenToId ((stripCR line).take pos),
               ConvertTokenToId ((stripCR line).drop (pos + 1)))
              { id := ConvertTokenToId
                  ((stripCR line).take pos ++ (stripCR line).drop (pos + 1)),
                value := index },
             index + 1)) ∧
    (loadMerges codePointId [ascii "#version: 0.2", ascii "# a", ascii "b c", ascii "# d"]
        ([], 0)).toOption.map (fun r =>
          (UMap.find r.1 (codePointId (ascii "#"), codePointId (ascii "a")),
           (UMap.find r.1 (codePointId (ascii "b"), codePointId (ascii "c"))).map
             (fun node => node.value),
           (UMap.find r.1 (codePointId (ascii "#"), codePointId (ascii "d"))).map
             (fun node => node.value),
           r.2)) =
      some (none, some 0, some 1, 2) := by
  refine ⟨?_, ?_, by decide⟩
  · intro header
    induction header with
    | nil => intro lines m _; rfl
    | cons line header ih =>
      intro lines m h
      have h0 := h line (List.mem_cons_self _ _)
      have hrec := ih lines m (fun l hl => h l (List.mem_cons_of_mem _ hl))
      rw [List.cons_append]
      rcases h0 with h0 | h0
      · rw [loadMerges_skip_blank ConvertTokenToId line _ m 0 h0, hrec]
      · rw [loadMerges_skip_hash ConvertTokenToId line _ m h0, hrec]
  · intro line lines m index hne h
    exact loadMerges_rule ConvertTokenToId line lines m index hne h

/-- C12 amended, at the header lines "#version: 0.2", "# a" before the line "b c". -/
theorem loadMerges_header_lines_witness :
    loadMerges codePointId ([ascii "#version: 0.2", ascii "# a"] ++ [ascii "b c"]) ([], 0) =
      loadMerges codePointId [ascii "b c"] ([], 0) :=
  (loadMerges_header_lines codePointId).1 [ascii "#version: 0.2", ascii "# a"] [ascii "b c"] []
    (by decide)
